import Mathlib

/-!
A shallow embedding of the pytest-depper dependency analysis engine
(src/pytest_depper/analyzer.py and src/pytest_depper/git_utils.py) and
theorems settling the specification's claims about it.

Modelling conventions:
* A stored Python `set[str]` (a dictionary value) is kept as a
  `List String` whose membership relation is the set; query results that
  the code accumulates with `set.add` / `set.update` become `Finset String`.
* A `dict[str, set[str]]` whose absent keys read as the empty set
  (`dict.get(k, set())`, or a `defaultdict(set)` read through `.get`)
  becomes a function `String → List String` built by folding the same
  updates the Python loops perform.
* The nested `symbol_imports` dictionary is kept as an association list,
  because key presence (created by `defaultdict` auto-vivification) is
  observable in Python (`in`, `len`, iteration) and one claim is about
  exactly that.
* The recursive closure helpers `_get_all_dependencies` and
  `_get_all_dependents` are one function `dfs` applied to the forward or
  the reverse adjacency; the Python recursion threads a shared mutable
  `visited` set, modelled by explicit state passing.  The Python version
  needs no fuel (the visited set bounds the recursion); the embedding
  carries a fuel argument large enough to never run out, as proved below.
-/

namespace PytestDepper

/-- Model of `s.startswith(pre)` on character lists: `charsPre p h` says the
list `p` is a leading segment of `h`. -/
def charsPre : List Char → List Char → Bool
  | [], _ => true
  | _ :: _, [] => false
  | a :: as, b :: bs => a == b && charsPre as bs

/-- Model of the Python substring test `pat in s` on character lists. -/
def charsSub (pat : List Char) : List Char → Bool
  | [] => charsPre pat []
  | c :: rest => charsPre pat (c :: rest) || charsSub pat rest

/-- Python `pat in s` (substring containment) on strings. -/
def strHas (s pat : String) : Bool := charsSub pat.toList s.toList

/-- Python `s.startswith(pre)` on strings. -/
def strStarts (s pre : String) : Bool := charsPre pre.toList s.toList

/-- One pass of the loop body shared by `_get_all_dependencies` and
`_get_all_dependents`: `for dep in direct: all.update(recurse(dep, visited))`.
The accumulator is the pair (result set, visited set); `f` is the recursive
call at one fuel level less. -/
def dfsList (f : String → Finset String → List String × Finset String) :
    List String → List String × Finset String → List String × Finset String
  | [], acc => acc
  | d :: ds, acc => dfsList f ds (acc.1 ++ (f d acc.2).1, (f d acc.2).2)

/-- The shared recursion of `_get_all_dependencies` / `_get_all_dependents`:
if `file ∈ visited` return the empty set, otherwise mark `file` visited,
start from its direct successors and fold the recursive calls over them,
threading the visited set.  `succ` is the stored adjacency (`.get` with
default empty set). -/
def dfs (succ : String → List String) : Nat → String → Finset String → List String × Finset String
  | 0, _, visited => ([], visited)
  | fuel + 1, file, visited =>
    if file ∈ visited then ([], visited)
    else dfsList (fun d v => dfs succ fuel d v) (succ file) (succ file, insert file visited)

/-- The edge relation of an adjacency function. -/
def Edge (succ : String → List String) (a b : String) : Prop := b ∈ succ a

theorem dfs_zero (succ : String → List String) (file : String) (visited : Finset String) :
    dfs succ 0 file visited = ([], visited) := rfl

theorem dfs_succ (succ : String → List String) (fuel : Nat) (file : String) (visited : Finset String) :
    dfs succ (fuel + 1) file visited =
      if file ∈ visited then ([], visited)
      else dfsList (fun d v => dfs succ fuel d v) (succ file)
        (succ file, insert file visited) := rfl

theorem dfsList_visited_mono (f : String → Finset String → List String × Finset String)
    (hf : ∀ d v, v ⊆ (f d v).2) :
    ∀ (L : List String) (acc : List String × Finset String), acc.2 ⊆ (dfsList f L acc).2 := by
  intro L
  induction L with
  | nil => intro acc; simp [dfsList]
  | cons d ds ih =>
    intro acc
    simp only [dfsList]
    exact Finset.Subset.trans (hf d acc.2) (ih (acc.1 ++ (f d acc.2).1, (f d acc.2).2))

theorem dfs_visited_mono (succ : String → List String) :
    ∀ (fuel : Nat) (file : String) (visited : Finset String),
      visited ⊆ (dfs succ fuel file visited).2 := by
  intro fuel
  induction fuel with
  | zero => intro file visited; rw [dfs_zero]
  | succ fuel ih =>
    intro file visited
    rw [dfs_succ]
    by_cases h : file ∈ visited
    · simp [h]
    · simp only [h, if_false]
      exact Finset.Subset.trans (Finset.subset_insert file visited)
        (dfsList_visited_mono (fun d v => dfs succ fuel d v) (fun d v => ih d v)
          (succ file) (succ file, insert file visited))

theorem biUnion_sdiff_sdiff {A B C : Finset String} (h1 : A ⊆ B) (h2 : B ⊆ C)
    (g : String → Finset String) :
    (B \ A).biUnion g ∪ (C \ B).biUnion g = (C \ A).biUnion g := by
  ext x
  simp only [Finset.mem_union, Finset.mem_biUnion, Finset.mem_sdiff]
  constructor
  · rintro (⟨n, ⟨hB, hA⟩, hx⟩ | ⟨n, ⟨hC, hB⟩, hx⟩)
    · exact ⟨n, ⟨h2 hB, hA⟩, hx⟩
    · exact ⟨n, ⟨hC, fun hA => hB (h1 hA)⟩, hx⟩
  · rintro ⟨n, ⟨hC, hA⟩, hx⟩
    by_cases hB : n ∈ B
    · exact Or.inl ⟨n, ⟨hB, hA⟩, hx⟩
    · exact Or.inr ⟨n, ⟨hC, hB⟩, hx⟩

theorem dfsList_result (succ : String → List String)
    (f : String → Finset String → List String × Finset String)
    (hm : ∀ d v, v ⊆ (f d v).2)
    (hr : ∀ d v, (f d v).1.toFinset = ((f d v).2 \ v).biUnion (fun n => (succ n).toFinset)) :
    ∀ (L : List String) (acc : List String × Finset String),
      (dfsList f L acc).1.toFinset
        = acc.1.toFinset ∪ ((dfsList f L acc).2 \ acc.2).biUnion (fun n => (succ n).toFinset) := by
  intro L
  induction L with
  | nil => intro acc; simp [dfsList]
  | cons d ds ih =>
    intro acc
    simp only [dfsList]
    rw [ih (acc.1 ++ (f d acc.2).1, (f d acc.2).2)]
    rw [List.toFinset_append]
    rw [hr d acc.2]
    rw [Finset.union_assoc]
    congr 1
    exact biUnion_sdiff_sdiff (hm d acc.2)
      (dfsList_visited_mono f hm ds
        (acc.1 ++ (f d acc.2).1, (f d acc.2).2)) _

theorem dfs_result (succ : String → List String) :
    ∀ (fuel : Nat) (file : String) (visited : Finset String),
      (dfs succ fuel file visited).1.toFinset
        = ((dfs succ fuel file visited).2 \ visited).biUnion (fun n => (succ n).toFinset) := by
  intro fuel
  induction fuel with
  | zero => intro file visited; simp [dfs_zero]
  | succ fuel ih =>
    intro file visited
    rw [dfs_succ]
    by_cases h : file ∈ visited
    · simp [h]
    · simp only [h, if_false]
      rw [dfsList_result succ (fun d v => dfs succ fuel d v)
        (fun d v => dfs_visited_mono succ fuel d v) (fun d v => ih d v)]
      have hins : insert file visited
          ⊆ (dfsList (fun d v => dfs succ fuel d v) (succ file)
              (succ file, insert file visited)).2 :=
        dfsList_visited_mono (fun d v => dfs succ fuel d v)
          (fun d v => dfs_visited_mono succ fuel d v) (succ file)
          (succ file, insert file visited)
      have hfile : file ∈ (dfsList (fun d v => dfs succ fuel d v) (succ file)
          (succ file, insert file visited)).2 :=
        hins (Finset.mem_insert_self file visited)
      have hsd : (dfsList (fun d v => dfs succ fuel d v) (succ file)
            (succ file, insert file visited)).2 \ visited
          = insert file ((dfsList (fun d v => dfs succ fuel d v) (succ file)
              (succ file, insert file visited)).2 \ insert file visited) := by
        ext x
        simp only [Finset.mem_sdiff, Finset.mem_insert]
        constructor
        · rintro ⟨hx, hnx⟩
          by_cases hxf : x = file
          · exact Or.inl hxf
          · exact Or.inr ⟨hx, fun hc => hc.elim hxf hnx⟩
        · rintro (hxf | ⟨hx, hnx⟩)
          · subst hxf; exact ⟨hfile, h⟩
          · exact ⟨hx, fun hc => hnx (Or.inr hc)⟩
      rw [hsd, Finset.biUnion_insert]

theorem dfsList_visited_reach (succ : String → List String)
    (f : String → Finset String → List String × Finset String)
    (start : String) (visited0 : Finset String)
    (hf : ∀ d v x, x ∈ (f d v).2 → x ∈ v ∨ Relation.ReflTransGen (Edge succ) d x) :
    ∀ (L : List String) (acc : List String × Finset String),
      (∀ d ∈ L, Relation.ReflTransGen (Edge succ) start d) →
      (∀ x ∈ acc.2, x ∈ visited0 ∨ Relation.ReflTransGen (Edge succ) start x) →
      ∀ x ∈ (dfsList f L acc).2, x ∈ visited0 ∨ Relation.ReflTransGen (Edge succ) start x := by
  intro L
  induction L with
  | nil => intro acc _ hacc; simpa [dfsList] using hacc
  | cons d ds ih =>
    intro acc hL hacc
    simp only [dfsList]
    refine ih (acc.1 ++ (f d acc.2).1, (f d acc.2).2) (fun e he => hL e (List.mem_cons_of_mem d he)) ?_
    intro x hx
    rcases hf d acc.2 x hx with hv | hreach
    · exact hacc x hv
    · exact Or.inr (Relation.ReflTransGen.trans (hL d (List.mem_cons_self d ds)) hreach)

theorem dfs_visited_reach (succ : String → List String) :
    ∀ (fuel : Nat) (file : String) (visited : Finset String) (x : String),
      x ∈ (dfs succ fuel file visited).2 →
      x ∈ visited ∨ Relation.ReflTransGen (Edge succ) file x := by
  intro fuel
  induction fuel with
  | zero => intro file visited x hx; rw [dfs_zero] at hx; exact Or.inl hx
  | succ fuel ih =>
    intro file visited x hx
    rw [dfs_succ] at hx
    by_cases h : file ∈ visited
    · simp only [h, if_true] at hx; exact Or.inl hx
    · simp only [h, if_false] at hx
      refine dfsList_visited_reach succ (fun d v => dfs succ fuel d v) file visited
        (fun d v y hy => ih d v y hy) (succ file)
        (succ file, insert file visited)
        (fun e he => Relation.ReflTransGen.single he) ?_ x hx
      intro y hy
      rcases Finset.mem_insert.mp hy with hyf | hyv
      · subst hyf; exact Or.inr Relation.ReflTransGen.refl
      · exact Or.inl hyv

theorem dfsList_complete (succ : String → List String) (S : Finset String) (fuel : Nat)
    (ihf : ∀ (d : String) (v : Finset String), (S \ v).card + 2 ≤ fuel →
      d ∈ (dfs succ fuel d v).2 ∧
      (∀ n, n ∈ (dfs succ fuel d v).2 → n ∉ v →
        ∀ e ∈ succ n, e ∈ (dfs succ fuel d v).2)) :
    ∀ (L : List String) (acc : List String × Finset String),
      (S \ acc.2).card + 2 ≤ fuel →
      (∀ d ∈ L, d ∈ (dfsList (fun d v => dfs succ fuel d v) L acc).2) ∧
      (∀ n, n ∈ (dfsList (fun d v => dfs succ fuel d v) L acc).2 → n ∉ acc.2 →
        ∀ e ∈ succ n, e ∈ (dfsList (fun d v => dfs succ fuel d v) L acc).2) := by
  intro L
  induction L with
  | nil =>
    intro acc _
    refine ⟨fun d hd => absurd hd (List.not_mem_nil d), ?_⟩
    intro n hn hnn
    exact absurd hn hnn
  | cons d ds ih =>
    intro acc hcard
    have hsub : acc.2 ⊆ (dfs succ fuel d acc.2).2 := dfs_visited_mono succ fuel d acc.2
    have hcard1 : (S \ (dfs succ fuel d acc.2).2).card + 2 ≤ fuel := by
      have : (S \ (dfs succ fuel d acc.2).2).card ≤ (S \ acc.2).card :=
        Finset.card_le_card (Finset.sdiff_subset_sdiff (Finset.Subset.refl S) hsub)
      omega
    have hcall := ihf d acc.2 hcard
    have hrest := ih (acc.1 ++ (dfs succ fuel d acc.2).1, (dfs succ fuel d acc.2).2) hcard1
    have hmono : (dfs succ fuel d acc.2).2
        ⊆ (dfsList (fun d v => dfs succ fuel d v) ds
            (acc.1 ++ (dfs succ fuel d acc.2).1, (dfs succ fuel d acc.2).2)).2 :=
      dfsList_visited_mono (fun d v => dfs succ fuel d v)
        (fun d v => dfs_visited_mono succ fuel d v) ds
        (acc.1 ++ (dfs succ fuel d acc.2).1, (dfs succ fuel d acc.2).2)
    constructor
    · intro e he
      rcases List.mem_cons.mp he with rfl | hds
      · simp only [dfsList]
        exact hmono (hcall.1)
      · simp only [dfsList]
        exact hrest.1 e hds
    · intro n hn hnn e hesucc
      simp only [dfsList] at hn ⊢
      by_cases hn1 : n ∈ (dfs succ fuel d acc.2).2
      · exact hmono (hcall.2 n hn1 hnn e hesucc)
      · exact hrest.2 n hn hn1 e hesucc

theorem dfs_complete (succ : String → List String) (S : Finset String)
    (hS : ∀ x, succ x ≠ [] → x ∈ S) :
    ∀ (fuel : Nat) (file : String) (visited : Finset String),
      (S \ visited).card + 2 ≤ fuel →
      file ∈ (dfs succ fuel file visited).2 ∧
      (∀ n, n ∈ (dfs succ fuel file visited).2 → n ∉ visited →
        ∀ e ∈ succ n, e ∈ (dfs succ fuel file visited).2) := by
  intro fuel
  induction fuel with
  | zero => intro file visited hcard; omega
  | succ fuel ih =>
    intro file visited hcard
    rw [dfs_succ]
    by_cases h : file ∈ visited
    · rw [if_pos h]
      exact ⟨h, fun n hn hnn => absurd hn hnn⟩
    · simp only [h, if_false]
      by_cases hnil : succ file = []
      · rw [hnil]
        simp only [dfsList]
        refine ⟨Finset.mem_insert_self file visited, ?_⟩
        intro n hn hnn e hesucc
        rcases Finset.mem_insert.mp hn with rfl | hv
        · rw [hnil] at hesucc; exact absurd hesucc (List.not_mem_nil e)
        · exact absurd hv hnn
      · have hfS : file ∈ S := hS file hnil
        have hcard1 : (S \ insert file visited).card + 2 ≤ fuel := by
          rw [Finset.sdiff_insert]
          have hmem : file ∈ S \ visited := Finset.mem_sdiff.mpr ⟨hfS, h⟩
          rw [Finset.card_erase_of_mem hmem]
          have : 1 ≤ (S \ visited).card := Finset.card_pos.mpr ⟨file, hmem⟩
          omega
        have hfold := dfsList_complete succ S fuel (fun d v hc => ih d v hc)
          (succ file) (succ file, insert file visited) hcard1
        have hins : insert file visited
            ⊆ (dfsList (fun d v => dfs succ fuel d v) (succ file)
                (succ file, insert file visited)).2 :=
          dfsList_visited_mono (fun d v => dfs succ fuel d v)
            (fun d v => dfs_visited_mono succ fuel d v) (succ file)
            (succ file, insert file visited)
        refine ⟨hins (Finset.mem_insert_self file visited), ?_⟩
        intro n hn hnn e hesucc
        by_cases hn1 : n ∈ insert file visited
        · rcases Finset.mem_insert.mp hn1 with rfl | hv
          · exact hfold.1 e hesucc
          · exact absurd hv hnn
        · exact hfold.2 n hn hn1 e hesucc

/-- Correctness of the closure recursion: starting from an empty visited set
with enough fuel, the returned set is exactly the set of nodes reachable from
`start` along one or more edges (so `start` itself is in the result exactly
when it lies on a cycle through itself). -/
theorem dfs_closure_spec (succ : String → List String) (S : Finset String)
    (hS : ∀ x, succ x ≠ [] → x ∈ S) (fuel : Nat) (hfuel : S.card + 2 ≤ fuel)
    (start y : String) :
    y ∈ (dfs succ fuel start ∅).1 ↔ Relation.TransGen (Edge succ) start y := by
  have hcard : (S \ (∅ : Finset String)).card + 2 ≤ fuel := by
    rw [Finset.sdiff_empty]; exact hfuel
  have hcomp := dfs_complete succ S hS fuel start ∅ hcard
  have hres := dfs_result succ fuel start ∅
  rw [Finset.sdiff_empty] at hres
  constructor
  · intro hy
    have hy2 : y ∈ (dfs succ fuel start ∅).1.toFinset := List.mem_toFinset.mpr hy
    rw [hres] at hy2
    rcases Finset.mem_biUnion.mp hy2 with ⟨n, hn, hyn⟩
    have hedge : Edge succ n y := List.mem_toFinset.mp hyn
    rcases dfs_visited_reach succ fuel start ∅ n hn with hv | hreach
    · exact absurd hv (Finset.not_mem_empty n)
    · exact Relation.TransGen.tail' hreach hedge
  · intro hy
    rcases Relation.TransGen.tail'_iff.mp hy with ⟨n, hreach, hedge⟩
    have hvisall : ∀ m, Relation.ReflTransGen (Edge succ) start m →
        m ∈ (dfs succ fuel start ∅).2 := by
      intro m hm
      induction hm with
      | refl => exact hcomp.1
      | tail hab hbc ihr =>
        exact hcomp.2 _ ihr (Finset.not_mem_empty _) _ hbc
    have hy2 : y ∈ (dfs succ fuel start ∅).1.toFinset := by
      rw [hres]
      exact Finset.mem_biUnion.mpr ⟨n, hvisall n hreach, List.mem_toFinset.mpr hedge⟩
    exact List.mem_toFinset.mp hy2

/-- The forward dependency dictionary built by `_build_dependency_graph`
(`self.dependency_graph[py_file] = dependencies` for every scanned file) read
back through `.get(file, set())`.  `extract` abstracts the first component of
`_extract_dependencies_and_symbols`. -/
def buildForward (files : List String) (extract : String → List String) :
    String → List String :=
  files.foldl (fun g py => fun y => if y = py then extract py else g y) (fun _ => [])

/-- The reverse dependency dictionary built by the same loop
(`for dep in dependencies: self.reverse_graph[dep].add(py_file)`), read back
through `.get(file, set())`. -/
def buildReverse (files : List String) (extract : String → List String) :
    String → List String :=
  files.foldl
    (fun g py => (extract py).foldl (fun g2 d => fun y => if y = d then py :: g2 y else g2 y) g)
    (fun _ => [])

theorem buildForward_eval (extract : String → List String) (x : String) :
    ∀ (files : List String) (g0 : String → List String),
      (files.foldl (fun g py => fun y => if y = py then extract py else g y) g0) x
        = if x ∈ files then extract x else g0 x := by
  intro files
  induction files with
  | nil => intro g0; simp
  | cons py rest ih =>
    intro g0
    simp only [List.foldl_cons]
    rw [ih]
    by_cases hx : x ∈ rest
    · simp [hx, List.mem_cons]
    · by_cases hxp : x = py
      · subst hxp; simp [hx]
      · simp [hx, hxp, List.mem_cons]

theorem buildForward_mem (files : List String) (extract : String → List String) (x : String) :
    buildForward files extract x = if x ∈ files then extract x else [] :=
  buildForward_eval extract x files (fun _ => [])

theorem buildReverse_inner (py x b : String) :
    ∀ (ds : List String) (g : String → List String),
      (x ∈ (ds.foldl (fun g2 d => fun y => if y = d then py :: g2 y else g2 y) g) b
        ↔ x ∈ g b ∨ (x = py ∧ b ∈ ds)) := by
  intro ds
  induction ds with
  | nil => intro g; simp
  | cons d rest ih =>
    intro g
    simp only [List.foldl_cons]
    rw [ih]
    by_cases hbd : b = d
    · rw [if_pos hbd]
      simp only [List.mem_cons]
      constructor
      · rintro ((rfl | hg) | ⟨rfl, hb⟩)
        · exact Or.inr ⟨rfl, Or.inl hbd⟩
        · exact Or.inl hg
        · exact Or.inr ⟨rfl, Or.inr hb⟩
      · rintro (hg | ⟨rfl, _⟩)
        · exact Or.inl (Or.inr hg)
        · exact Or.inl (Or.inl rfl)
    · rw [if_neg hbd]
      simp only [List.mem_cons]
      constructor
      · rintro (hg | ⟨rfl, hb⟩)
        · exact Or.inl hg
        · exact Or.inr ⟨rfl, Or.inr hb⟩
      · rintro (hg | ⟨rfl, (hbd2 | hb)⟩)
        · exact Or.inl hg
        · exact absurd hbd2 hbd
        · exact Or.inr ⟨rfl, hb⟩

theorem buildReverse_eval (extract : String → List String) (x b : String) :
    ∀ (files : List String) (g0 : String → List String),
      (x ∈ (files.foldl
          (fun g py => (extract py).foldl
            (fun g2 d => fun y => if y = d then py :: g2 y else g2 y) g) g0) b
        ↔ x ∈ g0 b ∨ (x ∈ files ∧ b ∈ extract x)) := by
  intro files
  induction files with
  | nil => intro g0; simp
  | cons py rest ih =>
    intro g0
    simp only [List.foldl_cons]
    rw [ih, buildReverse_inner]
    constructor
    · rintro ((hg | ⟨rfl, hb⟩) | ⟨hxr, hbx⟩)
      · exact Or.inl hg
      · exact Or.inr ⟨List.mem_cons_self _ _, hb⟩
      · exact Or.inr ⟨List.mem_cons_of_mem _ hxr, hbx⟩
    · rintro (hg | ⟨hxm, hbx⟩)
      · exact Or.inl (Or.inl hg)
      · rcases List.mem_cons.mp hxm with rfl | hxr
        · exact Or.inl (Or.inr ⟨rfl, hbx⟩)
        · exact Or.inr ⟨hxr, hbx⟩

theorem buildReverse_mem (files : List String) (extract : String → List String) (x b : String) :
    x ∈ buildReverse files extract b ↔ x ∈ files ∧ b ∈ extract x := by
  have h := buildReverse_eval extract x b files (fun _ => [])
  simpa [buildReverse] using h

/-- The state of a built `DependencyAnalyzer` session, abstracted over the
results of the file scan and of per-file import extraction (file reading and
AST parsing are I/O and are not modelled here; the resolver itself is
modelled separately below):
* `files` is `self._python_files`;
* `testPatterns` is `self.test_patterns`;
* `extract f` is the dependency set extracted from `f` by
  `_extract_dependencies_and_symbols` (first component);
* `symExtract f` is its second component: the association of source files to
  the sets of names imported from them, the wildcard recorded as the literal
  name `*` exactly as in the Python code. -/
structure Session where
  files : List String
  testPatterns : List String
  extract : String → List String
  symExtract : String → List (String × List String)

/-- `_is_test_file`: some configured pattern occurs as a substring of the
path (`pattern in file_path`). -/
def Session.isTest (s : Session) (f : String) : Bool :=
  s.testPatterns.any (fun p => strHas f p)

/-- `self.dependency_graph` read through `.get(file, set())`. -/
def Session.forwardG (s : Session) : String → List String :=
  buildForward s.files s.extract

/-- `self.reverse_graph` read through `.get(file, set())`. -/
def Session.reverseG (s : Session) : String → List String :=
  buildReverse s.files s.extract

/-- Fuel that never runs out for closures over this session's graphs. -/
def Session.fuelN (s : Session) : Nat :=
  (s.files ++ s.files.flatMap s.extract).length + 2

/-- Every node with outgoing edges in either graph lies in this finite set. -/
def Session.support (s : Session) : Finset String :=
  (s.files ++ s.files.flatMap s.extract).toFinset

/-- `_get_all_dependencies(file_path)` called with a fresh visited set (the
returned list read as a set: only membership is ever used). -/
def Session.allDependencies (s : Session) (f : String) : List String :=
  (dfs s.forwardG s.fuelN f ∅).1

/-- `_get_all_dependents(file_path)` called with a fresh visited set. -/
def Session.allDependents (s : Session) (f : String) : List String :=
  (dfs s.reverseG s.fuelN f ∅).1

theorem forwardG_support (s : Session) : ∀ x, s.forwardG x ≠ [] → x ∈ s.support := by
  intro x hx
  rw [Session.forwardG, buildForward_mem] at hx
  by_cases hm : x ∈ s.files
  · exact List.mem_toFinset.mpr (List.mem_append_left _ hm)
  · rw [if_neg hm] at hx; exact absurd rfl hx

theorem reverseG_support (s : Session) : ∀ x, s.reverseG x ≠ [] → x ∈ s.support := by
  intro x hx
  rcases List.exists_mem_of_ne_nil _ hx with ⟨y, hy⟩
  rw [Session.reverseG, buildReverse_mem] at hy
  refine List.mem_toFinset.mpr (List.mem_append_right _ ?_)
  exact List.mem_flatMap.mpr ⟨y, hy.1, hy.2⟩

theorem support_card (s : Session) : s.support.card + 2 ≤ s.fuelN := by
  have h := List.toFinset_card_le (s.files ++ s.files.flatMap s.extract)
  rw [Session.support, Session.fuelN]
  omega

theorem allDependents_iff (s : Session) (f y : String) :
    y ∈ s.allDependents f ↔ Relation.TransGen (Edge s.reverseG) f y :=
  dfs_closure_spec s.reverseG s.support (reverseG_support s) s.fuelN (support_card s) f y

theorem allDependencies_iff (s : Session) (f y : String) :
    y ∈ s.allDependencies f ↔ Relation.TransGen (Edge s.forwardG) f y :=
  dfs_closure_spec s.forwardG s.support (forwardG_support s) s.fuelN (support_card s) f y

theorem edge_forward (s : Session) (a b : String) :
    Edge s.forwardG a b ↔ a ∈ s.files ∧ b ∈ s.extract a := by
  rw [Edge, Session.forwardG, buildForward_mem]
  by_cases hm : a ∈ s.files
  · simp [hm]
  · simp [hm]

theorem edge_reverse (s : Session) (a b : String) :
    Edge s.reverseG a b ↔ b ∈ s.files ∧ a ∈ s.extract b := by
  rw [Edge, Session.reverseG]
  exact buildReverse_mem s.files s.extract b a

theorem edge_swap (s : Session) (a b : String) :
    Edge s.reverseG a b ↔ Edge s.forwardG b a := by
  rw [edge_reverse, edge_forward]

theorem transGen_reverse_forward (s : Session) (a b : String) :
    Relation.TransGen (Edge s.reverseG) a b ↔ Relation.TransGen (Edge s.forwardG) b a := by
  constructor
  · intro h
    have h2 : Relation.TransGen (Function.swap (Edge s.forwardG)) a b :=
      Relation.TransGen.mono (fun x y hxy => (edge_swap s x y).mp hxy) h
    exact Relation.transGen_swap.mp h2
  · intro h
    have h2 : Relation.TransGen (Function.swap (Edge s.forwardG)) a b :=
      Relation.transGen_swap.mpr h
    exact Relation.TransGen.mono (fun x y hxy => (edge_swap s x y).mpr hxy) h2

/-- Body of the inner loop of `_map_tests_to_modules`:
`if not self._is_test_file(dep): self.module_to_tests[dep].add(test_file)`.
The defaultdict is modelled as a total function (absent key = empty set);
every key the loop creates immediately receives an element, so key presence
coincides with nonemptiness of the stored set. -/
def m2tInnerStep (s : Session) (t : String) (m2 : String → Finset String) (dep : String) :
    String → Finset String :=
  if s.isTest dep then m2 else fun y => if y = dep then insert t (m2 y) else m2 y

/-- One iteration of the outer loop of `_map_tests_to_modules`: walk the full
transitive dependency set of one test file (the Python `for dep in all_deps`
iterates over a set; only set-updates are performed, so order is
immaterial). -/
def m2tOuterStep (s : Session) (m : String → Finset String) (t : String) :
    String → Finset String :=
  (s.allDependencies t).foldl (fun m2 dep => m2tInnerStep s t m2 dep) m

/-- `_map_tests_to_modules`: the `module_to_tests` index of a built session. -/
def Session.moduleToTests (s : Session) : String → Finset String :=
  (s.files.filter (fun f => s.isTest f)).foldl (fun m t => m2tOuterStep s m t) (fun _ => ∅)

theorem m2tInner_mem (s : Session) (t x tt : String) :
    ∀ (L : List String) (m : String → Finset String),
      (tt ∈ (L.foldl (fun m2 dep => m2tInnerStep s t m2 dep) m) x
        ↔ tt ∈ m x ∨ (tt = t ∧ x ∈ L ∧ s.isTest x = false)) := by
  intro L
  induction L with
  | nil => intro m; simp
  | cons dep rest ih =>
    intro m
    simp only [List.foldl_cons]
    rw [ih]
    rw [m2tInnerStep]
    by_cases hd : s.isTest dep = true
    · rw [if_pos hd]
      constructor
      · rintro (hm | ⟨rfl, hx, hxt⟩)
        · exact Or.inl hm
        · exact Or.inr ⟨rfl, List.mem_cons_of_mem _ hx, hxt⟩
      · rintro (hm | ⟨rfl, hx, hxt⟩)
        · exact Or.inl hm
        · rcases List.mem_cons.mp hx with rfl | hx2
          · rw [hd] at hxt; exact absurd hxt (by simp)
          · exact Or.inr ⟨rfl, hx2, hxt⟩
    · rw [if_neg hd]
      by_cases hxdep : x = dep
      · subst hxdep
        have hxf : s.isTest x = false := by
          cases hb : s.isTest x
          · rfl
          · exact absurd hb hd
        rw [if_pos rfl, Finset.mem_insert]
        constructor
        · rintro ((rfl | hm) | ⟨rfl, hx, hxt⟩)
          · exact Or.inr ⟨rfl, List.mem_cons_self _ _, hxf⟩
          · exact Or.inl hm
          · exact Or.inr ⟨rfl, List.mem_cons_of_mem _ hx, hxt⟩
        · rintro (hm | ⟨rfl, hx, hxt⟩)
          · exact Or.inl (Or.inr hm)
          · exact Or.inl (Or.inl rfl)
      · simp only [if_neg hxdep]
        constructor
        · rintro (hm | ⟨rfl, hx, hxt⟩)
          · exact Or.inl hm
          · exact Or.inr ⟨rfl, List.mem_cons_of_mem _ hx, hxt⟩
        · rintro (hm | ⟨rfl, hx, hxt⟩)
          · exact Or.inl hm
          · rcases List.mem_cons.mp hx with rfl | hx2
            · exact absurd rfl hxdep
            · exact Or.inr ⟨rfl, hx2, hxt⟩

theorem m2tOuter_mem (s : Session) (x tt : String) :
    ∀ (TL : List String) (m0 : String → Finset String),
      (tt ∈ (TL.foldl (fun m t => m2tOuterStep s m t) m0) x
        ↔ tt ∈ m0 x ∨ (tt ∈ TL ∧ x ∈ s.allDependencies tt ∧ s.isTest x = false)) := by
  intro TL
  induction TL with
  | nil => intro m0; simp
  | cons t rest ih =>
    intro m0
    simp only [List.foldl_cons]
    rw [ih]
    rw [m2tOuterStep, m2tInner_mem]
    constructor
    · rintro ((hm | ⟨rfl, hx, hxt⟩) | ⟨htl, hdep, hxt⟩)
      · exact Or.inl hm
      · exact Or.inr ⟨List.mem_cons_self _ _, hx, hxt⟩
      · exact Or.inr ⟨List.mem_cons_of_mem _ htl, hdep, hxt⟩
    · rintro (hm | ⟨htl, hdep, hxt⟩)
      · exact Or.inl (Or.inl hm)
      · rcases List.mem_cons.mp htl with rfl | htl2
        · exact Or.inl (Or.inr ⟨rfl, hdep, hxt⟩)
        · exact Or.inr ⟨htl2, hdep, hxt⟩

/-- Membership in the built `module_to_tests` index: exactly the test files
whose full forward (dependency) closure reaches `x`, provided `x` itself is
not classified as a test (test-classified dependencies are skipped by
`_map_tests_to_modules`). -/
theorem moduleToTests_mem (s : Session) (x tt : String) :
    tt ∈ s.moduleToTests x ↔
      tt ∈ s.files ∧ s.isTest tt = true ∧ x ∈ s.allDependencies tt ∧ s.isTest x = false := by
  rw [Session.moduleToTests, m2tOuter_mem]
  simp only [Finset.not_mem_empty, false_or, List.mem_filter]
  constructor
  · rintro ⟨⟨hf, ht⟩, hdep, hxt⟩
    exact ⟨hf, ht, hdep, hxt⟩
  · rintro ⟨hf, ht, hdep, hxt⟩
    exact ⟨⟨hf, ht⟩, hdep, hxt⟩

/-- Body of the loop of `get_affected_tests` for one changed file:
add the changed file itself when it is a test, add the test-classified
members of its transitive dependents, and add its `module_to_tests` entry
when the key is present (key presence coincides with nonemptiness, because
`_map_tests_to_modules` adds an element whenever it creates a key). -/
def gatStep (s : Session) (acc : Finset String) (c : String) : Finset String :=
  if s.moduleToTests c ≠ ∅ then
    ((if s.isTest c then insert c acc else acc) ∪
      ((s.allDependents c).filter (fun f => s.isTest f)).toFinset) ∪ s.moduleToTests c
  else
    (if s.isTest c then insert c acc else acc) ∪
      ((s.allDependents c).filter (fun f => s.isTest f)).toFinset

/-- `get_affected_tests`: the public file-level query. -/
def Session.getAffectedTests (s : Session) (changed : List String) : Finset String :=
  changed.foldl (fun acc c => gatStep s acc c) ∅

theorem gatStep_mem (s : Session) (acc : Finset String) (c x : String) :
    x ∈ gatStep s acc c ↔
      x ∈ acc ∨ ((x = c ∧ s.isTest c = true) ∨
        (x ∈ s.allDependents c ∧ s.isTest x = true) ∨ x ∈ s.moduleToTests c) := by
  rw [gatStep]
  by_cases hm : s.moduleToTests c = ∅
  · rw [if_neg (fun hc => hc hm)]
    by_cases ht : s.isTest c = true
    · rw [if_pos ht]
      simp only [Finset.mem_union, Finset.mem_insert, List.mem_toFinset, List.mem_filter,
        hm, Finset.not_mem_empty]
      tauto
    · rw [if_neg ht]
      simp only [Finset.mem_union, List.mem_toFinset, List.mem_filter, hm,
        Finset.not_mem_empty]
      tauto
  · rw [if_pos hm]
    by_cases ht : s.isTest c = true
    · rw [if_pos ht]
      simp only [Finset.mem_union, Finset.mem_insert, List.mem_toFinset, List.mem_filter]
      tauto
    · rw [if_neg ht]
      simp only [Finset.mem_union, List.mem_toFinset, List.mem_filter]
      tauto

theorem getAffectedTests_mem (s : Session) (changed : List String) (x : String) :
    x ∈ s.getAffectedTests changed ↔
      ∃ c ∈ changed,
        (x = c ∧ s.isTest c = true) ∨
        (x ∈ s.allDependents c ∧ s.isTest x = true) ∨
        x ∈ s.moduleToTests c := by
  have haux : ∀ (L : List String) (acc : Finset String),
      (x ∈ L.foldl (fun a c => gatStep s a c) acc ↔
        x ∈ acc ∨ ∃ c ∈ L,
          (x = c ∧ s.isTest c = true) ∨
          (x ∈ s.allDependents c ∧ s.isTest x = true) ∨
          x ∈ s.moduleToTests c) := by
    intro L
    induction L with
    | nil => intro acc; simp
    | cons c rest ih =>
      intro acc
      simp only [List.foldl_cons]
      rw [ih, gatStep_mem]
      constructor
      · rintro ((hacc | hP) | ⟨e, he, hPe⟩)
        · exact Or.inl hacc
        · exact Or.inr ⟨c, List.mem_cons_self _ _, hP⟩
        · exact Or.inr ⟨e, List.mem_cons_of_mem _ he, hPe⟩
      · rintro (hacc | ⟨e, he, hPe⟩)
        · exact Or.inl (Or.inl hacc)
        · rcases List.mem_cons.mp he with rfl | he2
          · exact Or.inl (Or.inr hPe)
          · exact Or.inr ⟨e, he2, hPe⟩
  rw [Session.getAffectedTests, haux changed ∅]
  simp

/-- First-match association lookup, the non-destructive Python dict read. -/
def dlookup {α : Type} : List (String × α) → String → Option α
  | [], _ => none
  | (k, v) :: rest, key => if k = key then some v else dlookup rest key

/-- Dictionary assignment `inner[src] = syms` on the inner dictionary of
`symbol_imports` (existing key overwritten in place, new key appended, as in
Python). -/
def setInner : List (String × List String) → String → List String → List (String × List String)
  | [], src, syms => [(src, syms)]
  | (k, v) :: rest, src, syms =>
      if k = src then (k, syms) :: rest else (k, v) :: setInner rest src syms

/-- The combined update `self.symbol_imports[py_file][source_file] = syms`:
subscripting the outer defaultdict creates the key when absent, then the
inner assignment is performed. -/
def setOuter : List (String × List (String × List String)) → String → String → List String →
    List (String × List (String × List String))
  | [], py, src, syms => [(py, [(src, syms)])]
  | (k, inner) :: rest, py, src, syms =>
      if k = py then (k, setInner inner src syms) :: rest
      else (k, inner) :: setOuter rest py src syms

/-- The `symbol_imports` table of a built session: the loop in
`_build_dependency_graph` performing
`self.symbol_imports[py_file][source_file] = imported_symbols`
for every scanned file and every source it imports from. -/
def Session.symbolImports (s : Session) : List (String × List (String × List String)) :=
  s.files.foldl
    (fun si py => (s.symExtract py).foldl (fun si2 p => setOuter si2 py p.1 p.2) si)
    []

/-- The symbol-import entry of an (importer, dependency) pair, read
non-destructively (used to state properties; the queries below model the
actual destructive defaultdict access). -/
def lookupSym (si : List (String × List (String × List String))) (t m : String) :
    Option (List String) :=
  (dlookup si t).bind (fun inner => dlookup inner m)

/-- `self.symbol_imports[test_file]` on the outer defaultdict: returns the
stored inner dictionary together with the updated outer dictionary — when
the key is absent it is created with an empty inner dictionary (Python
appends new keys at the end). -/
def getVivify : List (String × List (String × List String)) → String →
    List (String × List String) × List (String × List (String × List String))
  | [], py => ([], [(py, [])])
  | (k, inner) :: rest, py =>
      if k = py then (inner, (k, inner) :: rest)
      else ((getVivify rest py).1, (k, inner) :: (getVivify rest py).2)

theorem getVivify_of_mem :
    ∀ (si : List (String × List (String × List String))) (py : String)
      (inner : List (String × List String)),
      dlookup si py = some inner → getVivify si py = (inner, si) := by
  intro si
  induction si with
  | nil => intro py inner h; exact absurd h (by simp [dlookup])
  | cons kv rest ih =>
    intro py inner h
    obtain ⟨k, v⟩ := kv
    rw [dlookup] at h
    rw [getVivify]
    by_cases hk : k = py
    · rw [if_pos hk] at h
      rw [if_pos hk, Option.some_inj.mp h]
    · rw [if_neg hk] at h
      rw [if_neg hk, ih py inner h]

theorem getVivify_of_not_mem :
    ∀ (si : List (String × List (String × List String))) (py : String),
      dlookup si py = none → getVivify si py = ([], si ++ [(py, [])]) := by
  intro si
  induction si with
  | nil => intro py _; rfl
  | cons kv rest ih =>
    intro py h
    obtain ⟨k, v⟩ := kv
    rw [dlookup] at h
    by_cases hk : k = py
    · rw [if_pos hk] at h; exact absurd h (by simp)
    · rw [if_neg hk] at h
      rw [getVivify, if_neg hk, ih py h]
      simp

theorem dlookup_append {α : Type} :
    ∀ (l1 l2 : List (String × α)) (u : String),
      dlookup (l1 ++ l2) u =
        match dlookup l1 u with
        | some v => some v
        | none => dlookup l2 u := by
  intro l1
  induction l1 with
  | nil => intro l2 u; simp [dlookup]
  | cons kv rest ih =>
    intro l2 u
    obtain ⟨k, v⟩ := kv
    rw [List.cons_append, dlookup, dlookup]
    by_cases hk : k = u
    · rw [if_pos hk, if_pos hk]
    · rw [if_neg hk, if_neg hk, ih]

/-- The state `st` is the original table `si0` with possibly some extra keys
holding empty inner dictionaries (the only effect defaultdict vivification
can have during queries). -/
def VivifiedFrom (si0 st : List (String × List (String × List String))) : Prop :=
  ∀ t, dlookup st t = dlookup si0 t ∨ (dlookup si0 t = none ∧ dlookup st t = some [])

theorem vivifiedFrom_refl (si0 : List (String × List (String × List String))) :
    VivifiedFrom si0 si0 := fun _ => Or.inl rfl

theorem vivifiedFrom_getVivify (si0 st : List (String × List (String × List String)))
    (h : VivifiedFrom si0 st) (t : String) :
    VivifiedFrom si0 (getVivify st t).2 := by
  cases hst : dlookup st t with
  | some inner =>
    rw [getVivify_of_mem st t inner hst]
    exact h
  | none =>
    rw [getVivify_of_not_mem st t hst]
    intro u
    rw [dlookup_append]
    cases hu : dlookup st u with
    | some w =>
      simp only []
      rcases h u with h1 | h2
      · rw [hu] at h1
        exact Or.inl h1
      · rw [hu] at h2
        exact Or.inr h2
    | none =>
      simp only [dlookup]
      by_cases hut : t = u
      · subst hut
        rw [if_pos rfl]
        rcases h t with h1 | h2
        · rw [hst] at h1
          exact Or.inr ⟨h1.symm, rfl⟩
        · rw [hst] at h2
          exact absurd h2.2 (by simp)
      · rw [if_neg hut]
        rcases h u with h1 | h2
        · rw [hu] at h1
          exact Or.inl h1
        · rw [hu] at h2
          exact absurd h2.2 (by simp)

theorem getVivify_inner_lookup (si0 st : List (String × List (String × List String)))
    (h : VivifiedFrom si0 st) (t cf : String) :
    dlookup (getVivify st t).1 cf = lookupSym si0 t cf := by
  cases hst : dlookup st t with
  | some inner =>
    rw [getVivify_of_mem st t inner hst]
    rcases h t with h1 | h2
    · rw [hst] at h1
      rw [lookupSym, ← h1]
      rfl
    · rw [hst] at h2
      rw [lookupSym, h2.1]
      have : inner = [] := by
        have := h2.2
        simpa using this
      rw [this]
      rfl
  | none =>
    rw [getVivify_of_not_mem st t hst]
    rcases h t with h1 | h2
    · rw [hst] at h1
      rw [lookupSym, ← h1]
      rfl
    · rw [hst] at h2
      exact absurd h2.2 (by simp)

theorem lookupSym_vivifiedFrom (si0 st : List (String × List (String × List String)))
    (h : VivifiedFrom si0 st) (t m : String) :
    lookupSym st t m = lookupSym si0 t m := by
  rcases h t with h1 | h2
  · rw [lookupSym, lookupSym, h1]
  · rw [lookupSym, lookupSym, h2.1, h2.2]
    rfl

/-- The branch of `get_affected_tests_by_symbols` deciding one test file
once its entry for the changed file has been looked up: wildcard import
selects the test, otherwise a nonempty intersection with the changed symbol
names does; an absent entry selects nothing. -/
def gatsCheck : Option (List String) → List String → String → Finset String →
    List (String × List (String × List String)) →
    Finset String × List (String × List (String × List String))
  | some syms, names, t, res, st =>
      if "*" ∈ syms then (insert t res, st)
      else if syms.any (fun q => q ∈ names) then (insert t res, st)
      else (res, st)
  | none, _, _, res, st => (res, st)

/-- Body of the inner loop of `get_affected_tests_by_symbols` for one
candidate test file: skip non-tests, read `self.symbol_imports[test_file]`
(vivifying the key), then check for the changed file, the wildcard, and the
symbol intersection. -/
def gatsStep (s : Session) (cf : String) (names : List String)
    (acc : Finset String × List (String × List (String × List String))) (t : String) :
    Finset String × List (String × List (String × List String)) :=
  if s.isTest t then
    gatsCheck (dlookup (getVivify acc.2 t).1 cf) names t acc.1 (getVivify acc.2 t).2
  else acc

/-- `get_affected_tests_by_symbols`: the public symbol-level query.  The
result is the affected-test set together with the `symbol_imports` table as
it stands after the call (the query subscripts the outer defaultdict, which
inserts missing keys). -/
def Session.getAffectedTestsBySymbols (s : Session) (changed : List (String × List String)) :
    Finset String × List (String × List (String × List String)) :=
  changed.foldl
    (fun acc p => s.files.foldl (fun acc2 t => gatsStep s p.1 p.2 acc2 t) acc)
    (∅, s.symbolImports)

theorem gatsCheck_snd (o : Option (List String)) (names : List String) (t : String)
    (res : Finset String) (st : List (String × List (String × List String))) :
    (gatsCheck o names t res st).2 = st := by
  cases o with
  | some syms =>
    rw [gatsCheck]
    by_cases hw : "*" ∈ syms
    · rw [if_pos hw]
    · rw [if_neg hw]
      by_cases ha : syms.any (fun q => q ∈ names) = true
      · rw [if_pos ha]
      · rw [if_neg ha]
  | none => rfl

theorem gatsCheck_fst_mem (o : Option (List String)) (names : List String) (t x : String)
    (res : Finset String) (st : List (String × List (String × List String))) :
    (x ∈ (gatsCheck o names t res st).1 ↔
      x ∈ res ∨ (x = t ∧ ∃ syms, o = some syms ∧
        ("*" ∈ syms ∨ syms.any (fun q => q ∈ names) = true))) := by
  cases o with
  | some syms =>
    rw [gatsCheck]
    by_cases hw : "*" ∈ syms
    · rw [if_pos hw]
      simp only [Finset.mem_insert]
      constructor
      · rintro (rfl | hacc)
        · exact Or.inr ⟨rfl, syms, rfl, Or.inl hw⟩
        · exact Or.inl hacc
      · rintro (hacc | ⟨rfl, _⟩)
        · exact Or.inr hacc
        · exact Or.inl rfl
    · rw [if_neg hw]
      by_cases ha : syms.any (fun q => q ∈ names) = true
      · rw [if_pos ha]
        simp only [Finset.mem_insert]
        constructor
        · rintro (rfl | hacc)
          · exact Or.inr ⟨rfl, syms, rfl, Or.inr ha⟩
          · exact Or.inl hacc
        · rintro (hacc | ⟨rfl, _⟩)
          · exact Or.inr hacc
          · exact Or.inl rfl
      · rw [if_neg ha]
        constructor
        · intro hacc
          exact Or.inl hacc
        · rintro (hacc | ⟨rfl, syms2, hs2, hcase⟩)
          · exact hacc
          · have hss : syms = syms2 := Option.some_inj.mp hs2
            rcases hcase with hc | hc
            · exact absurd (hss ▸ hc) hw
            · exact absurd (hss ▸ hc) ha
  | none =>
    constructor
    · intro hacc
      exact Or.inl hacc
    · rintro (hacc | ⟨rfl, syms2, hs2, _⟩)
      · exact hacc
      · exact absurd hs2 (by simp)

theorem gatsStep_state (s : Session) (cf : String) (names : List String)
    (si0 : List (String × List (String × List String)))
    (acc : Finset String × List (String × List (String × List String))) (t : String)
    (h : VivifiedFrom si0 acc.2) :
    VivifiedFrom si0 (gatsStep s cf names acc t).2 := by
  rw [gatsStep]
  by_cases ht : s.isTest t = true
  · rw [if_pos ht, gatsCheck_snd]
    exact vivifiedFrom_getVivify si0 acc.2 h t
  · rw [if_neg ht]
    exact h

theorem gatsStep_mem (s : Session) (cf : String) (names : List String)
    (si0 : List (String × List (String × List String)))
    (acc : Finset String × List (String × List (String × List String))) (t x : String)
    (h : VivifiedFrom si0 acc.2) :
    (x ∈ (gatsStep s cf names acc t).1 ↔
      x ∈ acc.1 ∨ (x = t ∧ s.isTest t = true ∧
        ∃ syms, lookupSym si0 t cf = some syms ∧
          ("*" ∈ syms ∨ syms.any (fun q => q ∈ names) = true))) := by
  rw [gatsStep]
  by_cases ht : s.isTest t = true
  · rw [if_pos ht, gatsCheck_fst_mem, getVivify_inner_lookup si0 acc.2 h t cf]
    constructor
    · rintro (hacc | ⟨rfl, hex⟩)
      · exact Or.inl hacc
      · exact Or.inr ⟨rfl, ht, hex⟩
    · rintro (hacc | ⟨rfl, _, hex⟩)
      · exact Or.inl hacc
      · exact Or.inr ⟨rfl, hex⟩
  · rw [if_neg ht]
    constructor
    · intro hacc
      exact Or.inl hacc
    · rintro (hacc | ⟨rfl, htx, _⟩)
      · exact hacc
      · exact absurd htx ht

theorem gatsInner_spec (s : Session) (cf : String) (names : List String)
    (si0 : List (String × List (String × List String))) (x : String) :
    ∀ (FL : List String) (acc : Finset String × List (String × List (String × List String))),
      VivifiedFrom si0 acc.2 →
      VivifiedFrom si0 (FL.foldl (fun acc2 t => gatsStep s cf names acc2 t) acc).2 ∧
      (x ∈ (FL.foldl (fun acc2 t => gatsStep s cf names acc2 t) acc).1 ↔
        x ∈ acc.1 ∨ (x ∈ FL ∧ s.isTest x = true ∧
          ∃ syms, lookupSym si0 x cf = some syms ∧
            ("*" ∈ syms ∨ syms.any (fun q => q ∈ names) = true))) := by
  intro FL
  induction FL with
  | nil =>
    intro acc hv
    refine ⟨hv, ?_⟩
    simp
  | cons t rest ih =>
    intro acc hv
    simp only [List.foldl_cons]
    have hv1 : VivifiedFrom si0 (gatsStep s cf names acc t).2 :=
      gatsStep_state s cf names si0 acc t hv
    rcases ih (gatsStep s cf names acc t) hv1 with ⟨hv2, hmem⟩
    refine ⟨hv2, ?_⟩
    rw [hmem, gatsStep_mem s cf names si0 acc t x hv]
    constructor
    · rintro ((hacc | ⟨rfl, ht, hex⟩) | ⟨hrest, ht, hex⟩)
      · exact Or.inl hacc
      · exact Or.inr ⟨List.mem_cons_self _ _, ht, hex⟩
      · exact Or.inr ⟨List.mem_cons_of_mem _ hrest, ht, hex⟩
    · rintro (hacc | ⟨hmem2, ht, hex⟩)
      · exact Or.inl (Or.inl hacc)
      · rcases List.mem_cons.mp hmem2 with rfl | hrest
        · exact Or.inl (Or.inr ⟨rfl, ht, hex⟩)
        · exact Or.inr ⟨hrest, ht, hex⟩

theorem gatsOuter_spec (s : Session) (si0 : List (String × List (String × List String)))
    (x : String) :
    ∀ (CL : List (String × List String))
      (acc : Finset String × List (String × List (String × List String))),
      VivifiedFrom si0 acc.2 →
      VivifiedFrom si0
        (CL.foldl (fun acc p => s.files.foldl (fun acc2 t => gatsStep s p.1 p.2 acc2 t) acc) acc).2 ∧
      (x ∈ (CL.foldl (fun acc p => s.files.foldl (fun acc2 t => gatsStep s p.1 p.2 acc2 t) acc) acc).1 ↔
        x ∈ acc.1 ∨ ∃ p ∈ CL, x ∈ s.files ∧ s.isTest x = true ∧
          ∃ syms, lookupSym si0 x p.1 = some syms ∧
            ("*" ∈ syms ∨ syms.any (fun q => q ∈ p.2) = true)) := by
  intro CL
  induction CL with
  | nil =>
    intro acc hv
    refine ⟨hv, ?_⟩
    simp
  | cons p rest ih =>
    intro acc hv
    simp only [List.foldl_cons]
    rcases gatsInner_spec s p.1 p.2 si0 x s.files acc hv with ⟨hv1, hmem1⟩
    rcases ih (s.files.foldl (fun acc2 t => gatsStep s p.1 p.2 acc2 t) acc) hv1 with ⟨hv2, hmem2⟩
    refine ⟨hv2, ?_⟩
    rw [hmem2, hmem1]
    constructor
    · rintro ((hacc | ⟨hf, ht, hex⟩) | ⟨q, hq, hrest⟩)
      · exact Or.inl hacc
      · exact Or.inr ⟨p, List.mem_cons_self _ _, hf, ht, hex⟩
      · exact Or.inr ⟨q, List.mem_cons_of_mem _ hq, hrest⟩
    · rintro (hacc | ⟨q, hq, hf, ht, hex⟩)
      · exact Or.inl (Or.inl hacc)
      · rcases List.mem_cons.mp hq with rfl | hq2
        · exact Or.inl (Or.inr ⟨hf, ht, hex⟩)
        · exact Or.inr ⟨q, hq2, hf, ht, hex⟩

/-- Membership in the result of `get_affected_tests_by_symbols`. -/
theorem getAffectedTestsBySymbols_mem (s : Session) (changed : List (String × List String))
    (x : String) :
    x ∈ (s.getAffectedTestsBySymbols changed).1 ↔
      ∃ p ∈ changed, x ∈ s.files ∧ s.isTest x = true ∧
        ∃ syms, lookupSym s.symbolImports x p.1 = some syms ∧
          ("*" ∈ syms ∨ syms.any (fun q => q ∈ p.2) = true) := by
  rw [Session.getAffectedTestsBySymbols]
  have h := (gatsOuter_spec s s.symbolImports x changed (∅, s.symbolImports)
    (vivifiedFrom_refl s.symbolImports)).2
  rw [h]
  simp

/-- The state left by `get_affected_tests_by_symbols` differs from the built
table only by vivified keys holding empty inner dictionaries. -/
theorem getAffectedTestsBySymbols_state (s : Session) (changed : List (String × List String)) :
    VivifiedFrom s.symbolImports (s.getAffectedTestsBySymbols changed).2 := by
  rw [Session.getAffectedTestsBySymbols]
  exact (gatsOuter_spec s s.symbolImports "" changed (∅, s.symbolImports)
    (vivifiedFrom_refl s.symbolImports)).1

theorem setOuter_keys (u : String) :
    ∀ (si : List (String × List (String × List String))) (py src : String) (syms : List String),
      dlookup (setOuter si py src syms) u ≠ none → dlookup si u ≠ none ∨ u = py := by
  intro si
  induction si with
  | nil =>
    intro py src syms h
    rw [setOuter, dlookup] at h
    by_cases hpu : py = u
    · exact Or.inr hpu.symm
    · rw [if_neg hpu, dlookup] at h
      exact absurd rfl h
  | cons kv rest ih =>
    intro py src syms h
    obtain ⟨k, inner⟩ := kv
    rw [setOuter] at h
    by_cases hk : k = py
    · rw [if_pos hk, dlookup] at h
      by_cases hku : k = u
      · exact Or.inl (by rw [dlookup, if_pos hku]; simp)
      · rw [if_neg hku] at h
        exact Or.inl (by rw [dlookup, if_neg hku]; exact h)
    · rw [if_neg hk, dlookup] at h
      by_cases hku : k = u
      · exact Or.inl (by rw [dlookup, if_pos hku]; simp)
      · rw [if_neg hku] at h
        rcases ih py src syms h with h2 | h2
        · exact Or.inl (by rw [dlookup, if_neg hku]; exact h2)
        · exact Or.inr h2

/-- Keys of the built `symbol_imports` table are scanned files. -/
theorem symbolImports_keys (s : Session) (u : String) :
    dlookup s.symbolImports u ≠ none → u ∈ s.files := by
  rw [Session.symbolImports]
  have haux : ∀ (L : List String) (si0 : List (String × List (String × List String))),
      (dlookup si0 u ≠ none → u ∈ s.files) → (∀ f ∈ L, f ∈ s.files) →
      dlookup (L.foldl
        (fun si py => (s.symExtract py).foldl (fun si2 p => setOuter si2 py p.1 p.2) si) si0) u ≠ none →
      u ∈ s.files := by
    intro L
    induction L with
    | nil => intro si0 h0 _ h; exact h0 h
    | cons py rest ih =>
      intro si0 h0 hLmem h
      simp only [List.foldl_cons] at h
      refine ih ((s.symExtract py).foldl (fun si2 p => setOuter si2 py p.1 p.2) si0) ?_
        (fun f hf => hLmem f (List.mem_cons_of_mem _ hf)) h
      have hinner : ∀ (PL : List (String × List String))
          (si1 : List (String × List (String × List String))),
          (dlookup si1 u ≠ none → u ∈ s.files) →
          dlookup (PL.foldl (fun si2 p => setOuter si2 py p.1 p.2) si1) u ≠ none →
          u ∈ s.files := by
        intro PL
        induction PL with
        | nil => intro si1 h1 hh; exact h1 hh
        | cons p prest ihp =>
          intro si1 h1 hh
          simp only [List.foldl_cons] at hh
          refine ihp (setOuter si1 py p.1 p.2) ?_ hh
          intro hset
          rcases setOuter_keys u si1 py p.1 p.2 hset with hcase | hcase
          · exact h1 hcase
          · exact hcase ▸ hLmem py (List.mem_cons_self _ _)
      exact hinner (s.symExtract py) si0 h0
  intro h
  exact haux s.files [] (by rw [dlookup]; simp) (fun f hf => hf) h

/-- ASCII lowering of one character (Python `str.lower()` restricted to the
ASCII names that package metadata uses). -/
def charLower (c : Char) : Char :=
  if 'A' ≤ c ∧ c ≤ 'Z' then Char.ofNat (c.toNat + 32) else c

/-- Python `module_name.lower()`. -/
def strLower (s : String) : String := String.mk (s.toList.map charLower)

/-- Python `module_name.split(".")` on the underlying character list:
split at every dot, keeping empty segments (so the empty string yields one
empty segment, as in Python). -/
def splitDotChars : List Char → List Char → List String
  | [], acc => [String.mk acc.reverse]
  | c :: rest, acc =>
      if c = '.' then String.mk acc.reverse :: splitDotChars rest []
      else splitDotChars rest (c :: acc)

/-- Python `module_name.split(".")`. -/
def splitDots (s : String) : List String := splitDotChars s.toList []

/-- `_is_external_module`: a top-level name is external when it is a
standard-library module name, or an installed package name
(case-insensitively), or, failing both, when no scanned file path starts
with the name.  `stdlibNames` models `sys.stdlib_module_names` and
`installed` the lowercased installed-distribution names cached by
`_get_installed_packages`. -/
def isExternalModule (stdlibNames installed files : List String) (moduleName : String) : Bool :=
  if moduleName ∈ stdlibNames then true
  else if strLower moduleName ∈ installed then true
  else if files.any (fun f => strStarts f moduleName) then false
  else true

/-- The module-file candidate for the first `i` dotted components:
`"/".join(parts[:i]) + ".py"`. -/
def modPath (parts : List String) (i : Nat) : String :=
  String.intercalate "/" (parts.take i) ++ ".py"

/-- The package-index candidate for the first `i` dotted components:
`"/".join(parts[:i]) + "/__init__.py"`. -/
def pkgPath (parts : List String) (i : Nat) : String :=
  String.intercalate "/" (parts.take i) ++ "/__init__.py"

/-- Loop body of `_resolve_import` for one prefix length `i`: probe the
module-file form, the package-index form, and — when the package-index form
matched and components remain — the next component's submodule file. -/
def resolveStep (files : List String) (parts : List String) (resolved : Finset String)
    (i : Nat) : Finset String :=
  let r1 := if modPath parts i ∈ files then insert (modPath parts i) resolved else resolved
  if pkgPath parts i ∈ files then
    if i < parts.length then
      if modPath parts (i + 1) ∈ files then
        insert (modPath parts (i + 1)) (insert (pkgPath parts i) r1)
      else insert (pkgPath parts i) r1
    else insert (pkgPath parts i) r1
  else r1

/-- `_resolve_import(module_name, from_file)`: the external check, then the
loop `for i in range(len(parts), 0, -1)` over prefix lengths. -/
def resolveImport (stdlibNames installed files : List String) (moduleName : String) :
    Finset String :=
  if isExternalModule stdlibNames installed files ((splitDots moduleName).headD "") then ∅
  else
    ((List.range (splitDots moduleName).length).reverse.map (fun j => j + 1)).foldl
      (fun resolved i => resolveStep files (splitDots moduleName) resolved i) ∅

theorem resolveStep_mem (files parts : List String) (resolved : Finset String) (i : Nat)
    (x : String) :
    x ∈ resolveStep files parts resolved i ↔
      x ∈ resolved ∨
      (x = modPath parts i ∧ modPath parts i ∈ files) ∨
      (pkgPath parts i ∈ files ∧ (x = pkgPath parts i ∨
        (i < parts.length ∧ x = modPath parts (i + 1) ∧ modPath parts (i + 1) ∈ files))) := by
  rw [resolveStep]
  split_ifs with h1 h2 h3 h4 h5 h6 h7
  all_goals simp_all [Finset.mem_insert]
  all_goals try tauto
  all_goals
    have hlt : ¬ i < parts.length := by omega
  all_goals simp only [hlt, false_and, and_false, false_or, or_false]
  all_goals tauto

theorem resolveFold_mem (files parts : List String) (x : String) :
    ∀ (L : List Nat) (acc : Finset String),
      x ∈ L.foldl (fun resolved i => resolveStep files parts resolved i) acc ↔
        x ∈ acc ∨ ∃ i ∈ L,
          (x = modPath parts i ∧ modPath parts i ∈ files) ∨
          (pkgPath parts i ∈ files ∧ (x = pkgPath parts i ∨
            (i < parts.length ∧ x = modPath parts (i + 1) ∧ modPath parts (i + 1) ∈ files))) := by
  intro L
  induction L with
  | nil => intro acc; simp
  | cons i rest ih =>
    intro acc
    simp only [List.foldl_cons]
    rw [ih, resolveStep_mem]
    constructor
    · rintro ((hacc | hP) | ⟨j, hj, hPj⟩)
      · exact Or.inl hacc
      · exact Or.inr ⟨i, List.mem_cons_self _ _, hP⟩
      · exact Or.inr ⟨j, List.mem_cons_of_mem _ hj, hPj⟩
    · rintro (hacc | ⟨j, hj, hPj⟩)
      · exact Or.inl (Or.inl hacc)
      · rcases List.mem_cons.mp hj with rfl | hj2
        · exact Or.inl (Or.inr hPj)
        · exact Or.inr ⟨j, hj2, hPj⟩

/-- Membership in the non-external resolution result: a union over all
prefix lengths from the full dotted length down to 1. -/
theorem resolveImport_mem (stdlibNames installed files : List String) (moduleName x : String)
    (hext : isExternalModule stdlibNames installed files
      ((splitDots moduleName).headD "") = false) :
    x ∈ resolveImport stdlibNames installed files moduleName ↔
      ∃ i, 1 ≤ i ∧ i ≤ (splitDots moduleName).length ∧
        ((x = modPath (splitDots moduleName) i ∧ modPath (splitDots moduleName) i ∈ files) ∨
         (pkgPath (splitDots moduleName) i ∈ files ∧
           (x = pkgPath (splitDots moduleName) i ∨
             (i < (splitDots moduleName).length ∧
               x = modPath (splitDots moduleName) (i + 1) ∧
               modPath (splitDots moduleName) (i + 1) ∈ files)))) := by
  rw [resolveImport, if_neg (by rw [hext]; simp), resolveFold_mem]
  simp only [Finset.not_mem_empty, false_or, List.mem_map, List.mem_reverse, List.mem_range]
  constructor
  · rintro ⟨i, ⟨j, hj, rfl⟩, hP⟩
    exact ⟨j + 1, by omega, by omega, hP⟩
  · rintro ⟨i, h1, h2, hP⟩
    exact ⟨i, ⟨i - 1, by omega, by omega⟩, hP⟩

/-- An import whose top-level name is classified external resolves to the
empty set. -/
theorem resolveImport_external (stdlibNames installed files : List String) (moduleName : String)
    (hext : isExternalModule stdlibNames installed files
      ((splitDots moduleName).headD "") = true) :
    resolveImport stdlibNames installed files moduleName = ∅ := by
  rw [resolveImport, if_pos hext]

/-- The three-way disjunction actually implemented by `_is_external_module`. -/
theorem isExternalModule_iff (stdlibNames installed files : List String) (name : String) :
    isExternalModule stdlibNames installed files name = true ↔
      name ∈ stdlibNames ∨ strLower name ∈ installed ∨
        ¬ ∃ f ∈ files, strStarts f name = true := by
  rw [isExternalModule]
  split_ifs with h1 h2 h3
  · simp [h1]
  · simp [h2]
  · simp only [List.any_eq_true] at h3
    constructor
    · intro hfalse
      exact absurd hfalse (by simp)
    · rintro (hc | hc | hc)
      · exact absurd hc h1
      · exact absurd hc h2
      · exact absurd h3 hc
  · simp only [List.any_eq_true] at h3
    constructor
    · intro _
      exact Or.inr (Or.inr h3)
    · intro _
      rfl

/-- A named definition node of a parsed module: name, starting line, ending
line, and the definitions nested inside it.  This abstracts the
`ast.FunctionDef` / `ast.AsyncFunctionDef` / `ast.ClassDef` nodes inspected
by `_get_symbol_at_line` (`end_lineno` is always an integer for these nodes
in the supported toolchain, so the `or node.lineno` fallback never fires). -/
inductive DefNode : Type where
  | mk : String → Nat → Nat → List DefNode → DefNode

def DefNode.name : DefNode → String
  | .mk n _ _ _ => n

def DefNode.lineno : DefNode → Nat
  | .mk _ l _ _ => l

def DefNode.endLineno : DefNode → Nat
  | .mk _ _ e _ => e

def DefNode.body : DefNode → List DefNode
  | .mk _ _ _ b => b

mutual
def defSize : DefNode → Nat
  | .mk _ _ _ b => 1 + defSizeL b
def defSizeL : List DefNode → Nat
  | [] => 0
  | d :: ds => defSize d + defSizeL ds
end

theorem defSizeL_append :
    ∀ (l1 l2 : List DefNode), defSizeL (l1 ++ l2) = defSizeL l1 + defSizeL l2 := by
  intro l1
  induction l1 with
  | nil => intro l2; simp [defSizeL]
  | cons d ds ih =>
    intro l2
    rw [List.cons_append, defSizeL, defSizeL, ih]
    omega

theorem defSize_eq_body (d : DefNode) : defSize d = 1 + defSizeL d.body := by
  cases d with
  | mk n l e b => rfl

/-- `ast.walk`: breadth-first traversal — pop the queue head, emit it, append
its children.  Restricted to definition nodes; parents still precede all
their descendants in the emitted order. -/
def bfsWalk : List DefNode → List DefNode
  | [] => []
  | d :: rest => d :: bfsWalk (rest ++ d.body)
termination_by q => defSizeL q
decreasing_by
  rw [defSizeL_append, defSizeL, defSize_eq_body]
  omega

/-- The range test `node.lineno <= line_number <= node.end_lineno`. -/
def containsLine (d : DefNode) (line : Nat) : Bool :=
  decide (d.lineno ≤ line) && decide (line ≤ d.endLineno)

/-- `_get_symbol_at_line`: walk the tree breadth-first and return the name
of the first definition whose line range contains the given line, or `None`
when no definition's range does. -/
def getSymbolAtLine (tree : List DefNode) (line : Nat) : Option String :=
  ((bfsWalk tree).find? (fun d => containsLine d line)).map DefNode.name

mutual
def subDefs : DefNode → List DefNode
  | .mk n l e b => .mk n l e b :: subDefsL b
def subDefsL : List DefNode → List DefNode
  | [] => []
  | d :: ds => subDefs d ++ subDefsL ds
end

theorem subDefsL_append :
    ∀ (l1 l2 : List DefNode), subDefsL (l1 ++ l2) = subDefsL l1 ++ subDefsL l2 := by
  intro l1
  induction l1 with
  | nil => intro l2; simp [subDefsL]
  | cons d ds ih =>
    intro l2
    rw [List.cons_append, subDefsL, subDefsL, ih, List.append_assoc]

theorem mem_subDefs_self (d : DefNode) : d ∈ subDefs d := by
  cases d with
  | mk n l e b =>
    rw [subDefs]
    exact List.mem_cons_self _ _

theorem mem_subDefsL :
    ∀ (L : List DefNode) (d : DefNode), d ∈ subDefsL L ↔ ∃ c ∈ L, d ∈ subDefs c := by
  intro L
  induction L with
  | nil => intro d; simp [subDefsL]
  | cons c rest ih =>
    intro d
    rw [subDefsL, List.mem_append, ih]
    constructor
    · rintro (hc | ⟨e, he, hde⟩)
      · exact ⟨c, List.mem_cons_self _ _, hc⟩
      · exact ⟨e, List.mem_cons_of_mem _ he, hde⟩
    · rintro ⟨e, he, hde⟩
      rcases List.mem_cons.mp he with rfl | he2
      · exact Or.inl hde
      · exact Or.inr ⟨e, he2, hde⟩

theorem subDefs_unfold (n : String) (l e : Nat) (b : List DefNode) :
    subDefs (.mk n l e b) = .mk n l e b :: subDefsL b := rfl

/-- Disjointness of two definitions' line ranges. -/
def rangesDisjoint (a b : DefNode) : Prop :=
  a.endLineno < b.lineno ∨ b.endLineno < a.lineno

/-- Well-formedness of a definition node as produced by a real parser:
children lie within the parent's line range, siblings occupy pairwise
disjoint ranges, and children are themselves well-formed. -/
inductive WFDef : DefNode → Prop where
  | mk (n : String) (l e : Nat) (b : List DefNode)
      (hin : ∀ c ∈ b, l ≤ c.lineno ∧ c.endLineno ≤ e)
      (hdis : b.Pairwise rangesDisjoint)
      (hrec : ∀ c ∈ b, WFDef c) : WFDef (.mk n l e b)

/-- Well-formedness of a forest (the module's top-level definitions, and
every intermediate bfs queue): pairwise disjoint ranges, members well
formed. -/
def WFForest (q : List DefNode) : Prop :=
  q.Pairwise rangesDisjoint ∧ ∀ c ∈ q, WFDef c

theorem wfDef_inv {d : DefNode} (h : WFDef d) :
    (∀ c ∈ d.body, d.lineno ≤ c.lineno ∧ c.endLineno ≤ d.endLineno) ∧
    d.body.Pairwise rangesDisjoint ∧ (∀ c ∈ d.body, WFDef c) := by
  cases h with
  | mk n l e b hin hdis hrec => exact ⟨hin, hdis, hrec⟩

/-- Every definition in the subtree of a well-formed definition lies within
its line range. -/
theorem subDefs_range {a : DefNode} (hwf : WFDef a) :
    ∀ d ∈ subDefs a, a.lineno ≤ d.lineno ∧ d.endLineno ≤ a.endLineno := by
  induction hwf with
  | mk n l e b hin hdis hrec ih =>
    intro d hd
    rw [subDefs_unfold] at hd
    rcases List.mem_cons.mp hd with rfl | hd2
    · exact ⟨le_refl _, le_refl _⟩
    · rcases (mem_subDefsL b d).mp hd2 with ⟨c, hc, hdc⟩
      have h1 := ih c hc d hdc
      have h2 := hin c hc
      exact ⟨le_trans h2.1 h1.1, le_trans h1.2 h2.2⟩

theorem wfForest_step (d : DefNode) (rest : List DefNode) (h : WFForest (d :: rest)) :
    WFForest (rest ++ d.body) := by
  rcases h with ⟨hpair, hall⟩
  rw [List.pairwise_cons] at hpair
  have hwfd := hall d (List.mem_cons_self _ _)
  rcases wfDef_inv hwfd with ⟨hin, hdis, hrec⟩
  constructor
  · rw [List.pairwise_append]
    refine ⟨hpair.2, hdis, ?_⟩
    intro r hr c hc
    have hdr := hpair.1 r hr
    have hcr := hin c hc
    simp only [rangesDisjoint] at hdr ⊢
    rcases hdr with hcase | hcase
    · right
      omega
    · left
      omega
  · intro c hc
    rcases List.mem_append.mp hc with hc1 | hc2
    · exact hall c (List.mem_cons_of_mem _ hc1)
    · exact hrec c hc2

theorem subDefs_cons (d : DefNode) : subDefs d = d :: subDefsL d.body := by
  cases d with
  | mk n l e b => rfl

theorem mem_subDefsL_cons (d : DefNode) (rest : List DefNode) (x : DefNode) :
    x ∈ subDefsL (d :: rest) ↔ x = d ∨ x ∈ subDefsL (rest ++ d.body) := by
  rw [subDefsL, List.mem_append, subDefs_cons, List.mem_cons, subDefsL_append, List.mem_append]
  tauto

theorem bfs_find_spec (line : Nat) :
    ∀ (N : Nat) (q : List DefNode), defSizeL q ≤ N → WFForest q →
      (((bfsWalk q).find? (fun d => containsLine d line) = none →
          ∀ d ∈ subDefsL q, containsLine d line = false) ∧
       (∀ dd, (bfsWalk q).find? (fun d => containsLine d line) = some dd →
          containsLine dd line = true ∧ dd ∈ subDefsL q ∧
          ∀ d ∈ subDefsL q, containsLine d line = true →
            dd.lineno ≤ d.lineno ∧ d.endLineno ≤ dd.endLineno)) := by
  intro N
  induction N with
  | zero =>
    intro q hsize hwf
    cases q with
    | nil => simp [bfsWalk, subDefsL]
    | cons d rest =>
      exfalso
      rw [defSizeL] at hsize
      have := defSize_eq_body d
      omega
  | succ N ih =>
    intro q hsize hwf
    cases q with
    | nil => simp [bfsWalk, subDefsL]
    | cons d rest =>
      have hsize2 : defSizeL (rest ++ d.body) ≤ N := by
        rw [defSizeL_append]
        rw [defSizeL, defSize_eq_body d] at hsize
        omega
      have hwf2 := wfForest_step d rest hwf
      rw [bfsWalk]
      by_cases hcd : containsLine d line = true
      · rw [@List.find?_cons_of_pos _ (fun x => containsLine x line) d
          (bfsWalk (rest ++ d.body)) hcd]
        constructor
        · intro hnone
          exact absurd hnone (by simp)
        · intro dd hdd
          injection hdd with hdd2
          subst hdd2
          refine ⟨hcd, ?_, ?_⟩
          · rw [subDefsL]
            exact List.mem_append_left _ (mem_subDefs_self d)
          · intro d2 hd2 hcont2
            rw [subDefsL, List.mem_append] at hd2
            rcases hd2 with hsub | hrest
            · exact subDefs_range (hwf.2 d (List.mem_cons_self _ _)) d2 hsub
            · exfalso
              rcases (mem_subDefsL rest d2).mp hrest with ⟨r, hr, hd2r⟩
              have hrange := subDefs_range (hwf.2 r (List.mem_cons_of_mem _ hr)) d2 hd2r
              have hdis := (List.pairwise_cons.mp hwf.1).1 r hr
              simp only [containsLine, Bool.and_eq_true, decide_eq_true_eq] at hcd hcont2
              simp only [rangesDisjoint] at hdis
              omega
      · have hcdf : containsLine d line = false := by
          cases hb : containsLine d line
          · rfl
          · exact absurd hb hcd
        rw [@List.find?_cons_of_neg _ (fun x => containsLine x line) d
          (bfsWalk (rest ++ d.body)) (by simp [hcdf])]
        rcases ih (rest ++ d.body) hsize2 hwf2 with ⟨ihnone, ihsome⟩
        constructor
        · intro hnone d2 hd2
          rcases (mem_subDefsL_cons d rest d2).mp hd2 with rfl | hmem3
          · exact hcdf
          · exact ihnone hnone d2 hmem3
        · intro dd hdd
          rcases ihsome dd hdd with ⟨hc2, hmem2, houter⟩
          refine ⟨hc2, ?_, ?_⟩
          · rw [mem_subDefsL_cons]
            exact Or.inr hmem2
          · intro d2 hd2 hcont2
            rcases (mem_subDefsL_cons d rest d2).mp hd2 with rfl | hmem3
            · rw [hcdf] at hcont2
              exact absurd hcont2 (by simp)
            · exact houter d2 hmem3 hcont2

/-- The analyzer's default `test_patterns`. -/
def defaultTestPatterns : List String := ["test_", "_test.py", "/tests/", "/test/"]

/-- Scenario: `a.py` defines `f`, `b.py` does `from a import f`,
`test_b.py` does `from b import f`. -/
def exABT : Session where
  files := ["a.py", "b.py", "test_b.py"]
  testPatterns := defaultTestPatterns
  extract := fun f => if f = "b.py" then ["a.py"] else if f = "test_b.py" then ["b.py"] else []
  symExtract := fun f =>
    if f = "b.py" then [("a.py", ["f"])]
    else if f = "test_b.py" then [("b.py", ["f"])] else []

/-- A session in which one test file imports another test file. -/
def exTT : Session where
  files := ["test_a.py", "test_b.py"]
  testPatterns := defaultTestPatterns
  extract := fun f => if f = "test_b.py" then ["test_a.py"] else []
  symExtract := fun _ => []

/-- Scenario: `test_x.py` does `from calc import add, subtract`. -/
def exCalc : Session where
  files := ["calc.py", "test_x.py"]
  testPatterns := defaultTestPatterns
  extract := fun f => if f = "test_x.py" then ["calc.py"] else []
  symExtract := fun f => if f = "test_x.py" then [("calc.py", ["add", "subtract"])] else []

/-- A session in which `test_w.py` does `import m` (wildcard entry). -/
def exWild : Session where
  files := ["m.py", "test_w.py"]
  testPatterns := defaultTestPatterns
  extract := fun f => if f = "test_w.py" then ["m.py"] else []
  symExtract := fun f => if f = "test_w.py" then [("m.py", ["*"])] else []

/-- A session with a single test file that imports nothing. -/
def exNoSym : Session where
  files := ["test_a.py"]
  testPatterns := defaultTestPatterns
  extract := fun _ => []
  symExtract := fun _ => []

/-- A circular import: `a.py` imports `b.py` and `b.py` imports `a.py`. -/
def exCyc : Session where
  files := ["a.py", "b.py"]
  testPatterns := defaultTestPatterns
  extract := fun f => if f = "a.py" then ["b.py"] else if f = "b.py" then ["a.py"] else []
  symExtract := fun _ => []

/-- A definition `d` of the tree is an innermost enclosing definition of
`line`: its range contains the line and is contained in the range of every
definition of the tree whose range contains the line.  Modelled from the
claim's words ("the innermost enclosing named function or class definition
whose line range contains that line"), to compare with what the code
computes. -/
def InnermostAt (tree : List DefNode) (line : Nat) (d : DefNode) : Prop :=
  d ∈ subDefsL tree ∧ containsLine d line = true ∧
    ∀ c ∈ subDefsL tree, containsLine c line = true →
      c.lineno ≤ d.lineno ∧ d.endLineno ≤ c.endLineno

/-- The nested scenario: class `C` spans lines 1-3 and contains a method `m`
spanning lines 2-3. -/
def exTree : List DefNode := [DefNode.mk "C" 1 3 [DefNode.mk "m" 2 3 []]]

theorem exTree_wf : WFForest exTree := by
  constructor
  · rw [exTree]
    exact List.pairwise_singleton _ _
  · intro c hc
    rw [exTree, List.mem_singleton] at hc
    subst hc
    refine WFDef.mk _ _ _ _ ?_ ?_ ?_
    · intro c2 hc2
      rw [List.mem_singleton] at hc2
      subst hc2
      exact ⟨by decide, by decide⟩
    · exact List.pairwise_singleton _ _
    · intro c2 hc2
      rw [List.mem_singleton] at hc2
      subst hc2
      refine WFDef.mk _ _ _ _ ?_ ?_ ?_
      · intro c3 hc3
        exact absurd hc3 (List.not_mem_nil c3)
      · exact List.Pairwise.nil
      · intro c3 hc3
        exact absurd hc3 (List.not_mem_nil c3)

/-- C1: for every built session and every list of changed files,
`get_affected_tests` returns exactly the union, over each changed file `c`,
of: the singleton `c` when `c` is classified as a test, every member of the
reverse-graph transitive closure of `c` that is classified as a test, and
the `ModuleToTests` entry of `c` when present; in particular, in the
project where `a.py` defines `f`, `b.py` imports it and `test_b.py` imports
from `b.py`, `affected_tests(["a.py"])` is exactly the singleton set
containing `test_b.py`. -/
theorem c1_get_affected_tests_spec :
    (∀ (s : Session) (changed : List String) (x : String),
      x ∈ s.getAffectedTests changed ↔
        ∃ c ∈ changed,
          (x = c ∧ s.isTest c = true) ∨
          (Relation.TransGen (Edge s.reverseG) c x ∧ s.isTest x = true) ∨
          x ∈ s.moduleToTests c) ∧
    Session.getAffectedTests exABT ["a.py"] = {"test_b.py"} := by
  constructor
  · intro s changed x
    rw [getAffectedTests_mem]
    constructor
    · rintro ⟨c, hc, hcase⟩
      refine ⟨c, hc, ?_⟩
      rcases hcase with h | ⟨hdep, ht⟩ | h
      · exact Or.inl h
      · exact Or.inr (Or.inl ⟨(allDependents_iff s c x).mp hdep, ht⟩)
      · exact Or.inr (Or.inr h)
    · rintro ⟨c, hc, hcase⟩
      refine ⟨c, hc, ?_⟩
      rcases hcase with h | ⟨hdep, ht⟩ | h
      · exact Or.inl h
      · exact Or.inr (Or.inl ⟨(allDependents_iff s c x).mpr hdep, ht⟩)
      · exact Or.inr (Or.inr h)
  · decide

/-- C2 counterexample: in the session `exTT` (where test file `test_b.py`
imports test file `test_a.py`), `test_b.py` is a test file in the
reverse-graph transitive closure of `test_a.py`, yet the precomputed
`ModuleToTests` entry of `test_a.py` is empty — the forward-closure-built
index and the live reverse-closure query disagree on a file that is itself
a test, refuting the claim's "including files that are themselves tests". -/
theorem c2_dual_path_counterexample :
    "test_b.py" ∈ Session.allDependents exTT "test_a.py" ∧
    Session.isTest exTT "test_b.py" = true ∧
    "test_b.py" ∉ Session.moduleToTests exTT "test_a.py" :=
  ⟨by decide, by decide, by decide⟩

/-- C2 amended: for every built session and every file `f` that is not
itself classified as a test, the precomputed `ModuleToTests` entry of `f`
equals the set of test-classified files in the reverse-graph transitive
closure of `f`.  (`_map_tests_to_modules` skips test-classified
dependencies, so the dual-path agreement holds exactly on non-test
files.) -/
theorem c2_dual_path_agreement (s : Session) (f : String)
    (hf : s.isTest f = false) (t : String) :
    t ∈ s.moduleToTests f ↔ s.isTest t = true ∧ t ∈ s.allDependents f := by
  rw [moduleToTests_mem]
  constructor
  · rintro ⟨hfiles, ht, hdep, _⟩
    refine ⟨ht, ?_⟩
    rw [allDependents_iff]
    exact (transGen_reverse_forward s f t).mpr ((allDependencies_iff s t f).mp hdep)
  · rintro ⟨ht, hdep⟩
    have htg := (allDependents_iff s f t).mp hdep
    have htfiles : t ∈ s.files := by
      rcases Relation.TransGen.tail'_iff.mp htg with ⟨n, _, hedge⟩
      exact ((edge_reverse s n t).mp hedge).1
    refine ⟨htfiles, ht, ?_, hf⟩
    rw [allDependencies_iff]
    exact (transGen_reverse_forward s f t).mp htg

theorem c2_dual_path_agreement_witness :
    Session.isTest exABT "a.py" = false ∧
    ("test_b.py" ∈ Session.moduleToTests exABT "a.py" ↔
      Session.isTest exABT "test_b.py" = true ∧
      "test_b.py" ∈ Session.allDependents exABT "a.py") :=
  ⟨by decide, c2_dual_path_agreement exABT "a.py" (by decide) "test_b.py"⟩

/-- C3: for every built session and changed-symbols map, the symbol-level
query includes a test file `T` exactly when, for some changed file `M` in
the map, the symbol-import entry of `(T, M)` exists and is the wildcard or
intersects `M`'s changed symbol set; in particular `test_x.py` importing
`add` and `subtract` from `calc.py` is not selected by changed symbols
`multiply` and is selected by `add`. -/
theorem c3_affected_by_symbols_spec :
    (∀ (s : Session) (changed : List (String × List String)) (T : String),
      s.isTest T = true →
      (T ∈ (s.getAffectedTestsBySymbols changed).1 ↔
        ∃ p ∈ changed, ∃ syms, lookupSym s.symbolImports T p.1 = some syms ∧
          ("*" ∈ syms ∨ ∃ q ∈ syms, q ∈ p.2))) ∧
    (Session.getAffectedTestsBySymbols exCalc [("calc.py", ["multiply"])]).1 = ∅ ∧
    (Session.getAffectedTestsBySymbols exCalc [("calc.py", ["add"])]).1 = {"test_x.py"} := by
  refine ⟨?_, by decide, by decide⟩
  intro s changed T hT
  rw [getAffectedTestsBySymbols_mem]
  constructor
  · rintro ⟨p, hp, _, _, syms, hsym, hcase⟩
    refine ⟨p, hp, syms, hsym, ?_⟩
    rcases hcase with h | h
    · exact Or.inl h
    · simp only [List.any_eq_true, decide_eq_true_eq] at h
      exact Or.inr h
  · rintro ⟨p, hp, syms, hsym, hcase⟩
    have hfiles : T ∈ s.files := by
      refine symbolImports_keys s T ?_
      intro hnone
      rw [lookupSym, hnone] at hsym
      exact absurd hsym (by simp)
    refine ⟨p, hp, hfiles, hT, syms, hsym, ?_⟩
    rcases hcase with h | h
    · exact Or.inl h
    · simp only [List.any_eq_true, decide_eq_true_eq]
      exact Or.inr h

theorem c3_affected_by_symbols_witness :
    Session.isTest exCalc "test_x.py" = true ∧
    ("test_x.py" ∈ (Session.getAffectedTestsBySymbols exCalc [("calc.py", ["add"])]).1 ↔
      ∃ p ∈ [("calc.py", ["add"])], ∃ syms,
        lookupSym (Session.symbolImports exCalc) "test_x.py" p.1 = some syms ∧
          ("*" ∈ syms ∨ ∃ q ∈ syms, q ∈ p.2)) :=
  ⟨by decide, c3_affected_by_symbols_spec.1 exCalc [("calc.py", ["add"])] "test_x.py" (by decide)⟩

/-- C4 counterexample: calling `get_affected_tests_by_symbols` on a session
whose only file is a test file with no imports changes the
`symbol_imports` dictionary — subscripting the outer defaultdict creates
the test file's key — so the session state is not identical before and
after the query. -/
theorem c4_query_mutates_counterexample :
    (Session.getAffectedTestsBySymbols exNoSym [("m.py", ["f"])]).2
      ≠ Session.symbolImports exNoSym := by
  decide

/-- C4 amended: after a session is built, `get_affected_tests_by_symbols`
leaves the symbol-import table extensionally unchanged — every
(importer, dependency) entry reads the same before and after — and the only
change it can make is adding keys that hold empty inner dictionaries
(defaultdict vivification of queried test files).  The forward graph, the
reverse graph and the `ModuleToTests` index are reached only through
non-vivifying `.get` and `in` accesses, and `get_affected_tests` performs
no write at all; both facts are reflected in the embedding by modelling
those components as pure values read by the queries. -/
theorem c4_query_effect (s : Session) (changed : List (String × List String)) :
    (∀ t m, lookupSym (s.getAffectedTestsBySymbols changed).2 t m
        = lookupSym s.symbolImports t m) ∧
    VivifiedFrom s.symbolImports (s.getAffectedTestsBySymbols changed).2 := by
  have hv := getAffectedTestsBySymbols_state s changed
  exact ⟨fun t m => lookupSym_vivifiedFrom _ _ hv t m, hv⟩

/-- The external-classification condition as claim C5 words it: the name is
a standard-library name or matches an installed package name
case-insensitively, AND no file in the File Index has a path beginning with
the name.  This definition follows the claim's words, not the code, and
exists only to be compared against `isExternalModule`. -/
def claimExternal (stdlibNames installed files : List String) (name : String) : Prop :=
  (name ∈ stdlibNames ∨ strLower name ∈ installed) ∧
    ¬ ∃ f ∈ files, strStarts f name = true

/-- C5 counterexample: the name `foo` is neither a standard-library name
nor an installed package, and no file of the index (`a.py` only) begins
with it; the code classifies it external (unknown names fall through to
external), while the claim's condition is false — under either grouping of
the claim's "or"/"and" (the second conjunct states the alternative grouping
explicitly). -/
theorem c5_external_counterexample :
    isExternalModule [] [] ["a.py"] "foo" = true ∧
    ¬ claimExternal [] [] ["a.py"] "foo" ∧
    ¬ ("foo" ∈ ([] : List String) ∨ (strLower "foo" ∈ ([] : List String) ∧
        ¬ ∃ f ∈ ["a.py"], strStarts f "foo" = true)) := by
  refine ⟨by decide, ?_, ?_⟩
  · rintro ⟨(h | h), _⟩
    · exact absurd h (List.not_mem_nil _)
    · exact absurd h (List.not_mem_nil _)
  · rintro (h | ⟨h, _⟩)
    · exact absurd h (List.not_mem_nil _)
    · exact absurd h (List.not_mem_nil _)

/-- C5 amended: a top-level module name is classified external exactly when
it is a standard-library name, OR matches an installed package name
case-insensitively, OR no file in the File Index has a path beginning with
the name — the File-Index check is a fallback disjunct, not a conjunct: a
standard-library or installed name is external regardless of the index, and
an unknown name absent from the index is external as well.  Every import
whose top-level name is classified external resolves to the empty set, so
it contributes no graph edge. -/
theorem c5_external_classification :
    (∀ (stdlibNames installed files : List String) (name : String),
      isExternalModule stdlibNames installed files name = true ↔
        name ∈ stdlibNames ∨ strLower name ∈ installed ∨
          ¬ ∃ f ∈ files, strStarts f name = true) ∧
    (∀ (stdlibNames installed files : List String) (moduleName : String),
      isExternalModule stdlibNames installed files ((splitDots moduleName).headD "") = true →
      resolveImport stdlibNames installed files moduleName = ∅) :=
  ⟨fun a b c d => isExternalModule_iff a b c d,
   fun a b c d h => resolveImport_external a b c d h⟩

theorem c5_external_classification_witness :
    isExternalModule ["os"] [] ["os_helper.py"] ((splitDots "os").headD "") = true ∧
    resolveImport ["os"] [] ["os_helper.py"] "os" = ∅ :=
  ⟨by decide, c5_external_classification.2 ["os"] [] ["os_helper.py"] "os" (by decide)⟩

/-- C6: for every non-external absolute import with dotted specifier of
length n, resolution returns exactly the union over every prefix length i
from n down to 1 of: the module-file form of the prefix when present in the
File Index, the package-index form when present, and — when i < n and the
package-index form matched — the submodule file of the next component when
present; all candidates are kept.  In particular, resolving the import of
`pkg` in a project containing `pkg/__init__.py` includes
`pkg/__init__.py`. -/
theorem c6_resolution_spec :
    (∀ (stdlibNames installed files : List String) (moduleName x : String),
      isExternalModule stdlibNames installed files ((splitDots moduleName).headD "") = false →
      (x ∈ resolveImport stdlibNames installed files moduleName ↔
        ∃ i, 1 ≤ i ∧ i ≤ (splitDots moduleName).length ∧
          ((x = modPath (splitDots moduleName) i ∧ modPath (splitDots moduleName) i ∈ files) ∨
           (pkgPath (splitDots moduleName) i ∈ files ∧
             (x = pkgPath (splitDots moduleName) i ∨
               (i < (splitDots moduleName).length ∧
                 x = modPath (splitDots moduleName) (i + 1) ∧
                 modPath (splitDots moduleName) (i + 1) ∈ files)))))) ∧
    "pkg/__init__.py" ∈ resolveImport [] []
      ["pkg/__init__.py", "pkg/impl.py", "consumer.py"] "pkg" :=
  ⟨fun a b c d e h => resolveImport_mem a b c d e h, by decide⟩

theorem c6_resolution_witness :
    isExternalModule [] [] ["pkg/__init__.py", "pkg/impl.py", "consumer.py"]
      ((splitDots "pkg").headD "") = false ∧
    ("pkg/__init__.py" ∈ resolveImport [] []
        ["pkg/__init__.py", "pkg/impl.py", "consumer.py"] "pkg" ↔
      ∃ i, 1 ≤ i ∧ i ≤ (splitDots "pkg").length ∧
        (("pkg/__init__.py" = modPath (splitDots "pkg") i ∧
            modPath (splitDots "pkg") i ∈ ["pkg/__init__.py", "pkg/impl.py", "consumer.py"]) ∨
         (pkgPath (splitDots "pkg") i ∈ ["pkg/__init__.py", "pkg/impl.py", "consumer.py"] ∧
           ("pkg/__init__.py" = pkgPath (splitDots "pkg") i ∨
             (i < (splitDots "pkg").length ∧
               "pkg/__init__.py" = modPath (splitDots "pkg") (i + 1) ∧
               modPath (splitDots "pkg") (i + 1) ∈
                 ["pkg/__init__.py", "pkg/impl.py", "consumer.py"]))))) :=
  ⟨by decide, c6_resolution_spec.1 [] [] ["pkg/__init__.py", "pkg/impl.py", "consumer.py"]
    "pkg" "pkg/__init__.py" (by decide)⟩

/-- C7: on every built session's graphs — arbitrary graphs, cycles included
— the closure computation is a total function (so it terminates) returning
exactly the nodes reachable from the start by one or more edges; the start
node itself is in the result exactly when the transitive relation reaches
it again, i.e. through a cycle.  In particular, with `a.py` and `b.py`
importing each other, each is in the other's dependent closure. -/
theorem c7_closure_spec :
    (∀ (s : Session) (start y : String),
      (y ∈ s.allDependencies start ↔ Relation.TransGen (Edge s.forwardG) start y) ∧
      (y ∈ s.allDependents start ↔ Relation.TransGen (Edge s.reverseG) start y)) ∧
    ("b.py" ∈ Session.allDependents exCyc "a.py" ∧
     "a.py" ∈ Session.allDependents exCyc "b.py") :=
  ⟨fun s start y => ⟨allDependencies_iff s start y, allDependents_iff s start y⟩,
   ⟨by decide, by decide⟩⟩

/-- C8: for every built session and all files `a` and `b`, `b` is in the
forward-dependency set of `a` exactly when `a` is in the reverse-dependency
set of `b` — the two graphs are exact structural transposes. -/
theorem c8_graph_transpose (s : Session) (a b : String) :
    b ∈ s.forwardG a ↔ a ∈ s.reverseG b := by
  have h1 := edge_forward s a b
  have h2 := edge_reverse s b a
  rw [Edge] at h1 h2
  rw [h1, h2]

/-- C9 counterexample: in the module where class `C` (lines 1-3) contains
method `m` (lines 2-3), line 3 lies in both ranges; the innermost enclosing
definition is `m`, but `_get_symbol_at_line` returns the first range match
of the breadth-first `ast.walk`, which is the outer `C` — so the extraction
does not map the line to the innermost enclosing definition's name. -/
theorem c9_innermost_counterexample :
    ¬ ∃ d, InnermostAt exTree 3 d ∧ getSymbolAtLine exTree 3 = some d.name := by
  rintro ⟨d, ⟨hmem, _, hmin⟩, hname⟩
  have hsub : subDefsL exTree
      = [DefNode.mk "C" 1 3 [DefNode.mk "m" 2 3 []], DefNode.mk "m" 2 3 []] := by
    rfl
  rw [hsub] at hmem hmin
  rcases List.mem_cons.mp hmem with rfl | hmem2
  · have hm := hmin (DefNode.mk "m" 2 3 [])
      (List.mem_cons_of_mem _ (List.mem_cons_self _ _)) (by decide)
    have : (2 : Nat) ≤ 1 := hm.1
    omega
  · rcases List.mem_cons.mp hmem2 with rfl | hmem3
    · have hC : getSymbolAtLine exTree 3 = some "C" := by
        rw [getSymbolAtLine, exTree]
        simp [bfsWalk, List.find?, containsLine, DefNode.lineno, DefNode.endLineno,
          DefNode.body, DefNode.name]
      rw [hC] at hname
      have : ("C" : String) = "m" := Option.some_inj.mp hname
      exact absurd this (by decide)
    · exact absurd hmem3 (List.not_mem_nil _)

/-- C9 amended: for every well-formed module tree (children inside their
parent's line range, siblings on disjoint ranges) and every changed line,
`_get_symbol_at_line` maps the line to the name of the OUTERMOST enclosing
named function or class definition — the first range match of the
breadth-first walk, whose range contains the range of every definition
containing the line — and a line outside every such definition contributes
no symbol. -/
theorem c9_symbol_at_line_outermost (tree : List DefNode) (line : Nat)
    (hwf : WFForest tree) :
    (getSymbolAtLine tree line = none ↔
      ∀ d ∈ subDefsL tree, containsLine d line = false) ∧
    (∀ nm, getSymbolAtLine tree line = some nm →
      ∃ d ∈ subDefsL tree, d.name = nm ∧ containsLine d line = true ∧
        ∀ c ∈ subDefsL tree, containsLine c line = true →
          d.lineno ≤ c.lineno ∧ c.endLineno ≤ d.endLineno) := by
  have h := bfs_find_spec line (defSizeL tree) tree (le_refl _) hwf
  constructor
  · constructor
    · intro hnone
      rw [getSymbolAtLine, Option.map_eq_none'] at hnone
      exact h.1 hnone
    · intro hall
      rw [getSymbolAtLine, Option.map_eq_none']
      cases hf : (bfsWalk tree).find? (fun d => containsLine d line) with
      | none => rfl
      | some dd =>
        rcases h.2 dd hf with ⟨hc, hmem, _⟩
        rw [hall dd hmem] at hc
        exact absurd hc (by simp)
  · intro nm hnm
    rw [getSymbolAtLine] at hnm
    cases hf : (bfsWalk tree).find? (fun d => containsLine d line) with
    | none =>
      rw [hf] at hnm
      exact absurd hnm (by simp)
    | some dd =>
      rw [hf] at hnm
      have hdd : dd.name = nm := Option.some_inj.mp hnm
      rcases h.2 dd hf with ⟨hc, hmem, houter⟩
      exact ⟨dd, hmem, hdd, hc, houter⟩

theorem c9_symbol_at_line_witness :
    WFForest exTree ∧
    ((getSymbolAtLine exTree 3 = none ↔
        ∀ d ∈ subDefsL exTree, containsLine d 3 = false) ∧
     (∀ nm, getSymbolAtLine exTree 3 = some nm →
        ∃ d ∈ subDefsL exTree, d.name = nm ∧ containsLine d 3 = true ∧
          ∀ c ∈ subDefsL exTree, containsLine c 3 = true →
            d.lineno ≤ c.lineno ∧ c.endLineno ≤ d.endLineno)) :=
  ⟨exTree_wf, c9_symbol_at_line_outermost exTree 3 exTree_wf⟩

/-- C10: a wildcard symbol-import entry of (T, M) selects the test file `T`
even when the supplied changed-symbol set for `M` is empty: the wildcard
branch of `get_affected_tests_by_symbols` never inspects the changed symbol
names. -/
theorem c10_wildcard_empty_set (s : Session) (T M : String) (syms : List String)
    (hsym : lookupSym s.symbolImports T M = some syms)
    (hwild : "*" ∈ syms)
    (hT : s.isTest T = true) :
    T ∈ (s.getAffectedTestsBySymbols [(M, [])]).1 := by
  rw [getAffectedTestsBySymbols_mem]
  have hfiles : T ∈ s.files := by
    refine symbolImports_keys s T ?_
    intro hnone
    rw [lookupSym, hnone] at hsym
    exact absurd hsym (by simp)
  exact ⟨(M, []), List.mem_cons_self _ _, hfiles, hT, syms, hsym, Or.inl hwild⟩

theorem c10_wildcard_empty_set_witness :
    lookupSym (Session.symbolImports exWild) "test_w.py" "m.py" = some ["*"] ∧
    "*" ∈ ["*"] ∧ Session.isTest exWild "test_w.py" = true ∧
    "test_w.py" ∈ (Session.getAffectedTestsBySymbols exWild [("m.py", [])]).1 :=
  ⟨by decide, by decide, by decide,
    c10_wildcard_empty_set exWild "test_w.py" "m.py" ["*"] (by decide) (by decide) (by decide)⟩

end PytestDepper
